import Mathlib

/-!
Shallow embedding of the token-sequence edit engine of React-Tokenized-Input
(src/index.tsx).  JS strings are modelled as `List Char`, JS array indices and
flat offsets as `Nat`.  The definitions below mirror, line by line, the loops
and splices of the source: the flat-offset locator (the scan shared by
`beforeInputCallback` and `handlePaste`), the splice half of
`updateTokensAndSuggestions`, the suggestion matcher, `handleCopy`,
`handlePaste` and `applySuggestion`.
-/

/-- A token: a literal text run or a dictionary reference
(source: `type Token = string | { key: string }`). -/
inductive Token where
  | text (s : List Char)
  | ref (key : List Char)
deriving DecidableEq, Repr

/-- A dictionary entry (`TokenData`); of its fields only `displayText`
enters the edit engine, styles and suggestion props are presentation. -/
structure TokenData where
  displayText : List Char
deriving DecidableEq, Repr

/-- The `data` dictionary, modelled as an association list (first match wins,
like a JS object lookup). -/
abbrev Dict := List (List Char × TokenData)

/-- JS `data[key]` as an option. -/
def lookupD (d : Dict) (k : List Char) : Option TokenData :=
  (d.find? (fun p => p.1 == k)).map (·.2)

/-- Resolution with nullish coalescing, `data[token.key]?.displayText ??
missingDataText`, as used by the flat-offset scans and by `handleCopy`. -/
def tokenTextQQ (d : Dict) (miss : List Char) : Token → List Char
  | .text s => s
  | .ref k =>
    match lookupD d k with
    | some td => td.displayText
    | none => miss

/-- Resolution with `||`, `data[token.key]?.displayText || missingDataText`,
as used by the `value` memo that renders the flat value (an empty
`displayText` also falls back). -/
def tokenTextOr (d : Dict) (miss : List Char) : Token → List Char
  | .text s => s
  | .ref k =>
    match lookupD d k with
    | some td => if td.displayText = [] then miss else td.displayText
    | none => miss

/-- Per-token length as accumulated by the locator loops
(`token.length` for text, `(data[key]?.displayText ?? missing).length`
for references). -/
def tokenLen (d : Dict) (miss : List Char) (t : Token) : Nat :=
  (tokenTextQQ d miss t).length

/-- The rendered flat value: `tokens.map(resolve).join("")` with `||`
fallback semantics (the `value` useMemo). -/
def flatValue (d : Dict) (miss : List Char) (toks : List Token) : List Char :=
  (toks.map (tokenTextOr d miss)).flatten

/-- Concatenation of the `??`-resolved texts; the lengths summed by the
locator and by `handleCopy` are lengths of this string. -/
def flatQQ (d : Dict) (miss : List Char) (toks : List Token) : List Char :=
  (toks.map (tokenTextQQ d miss)).flatten

/-- JS `String.prototype.substring`: clamps to the string and swaps the
endpoints when given in the wrong order. -/
def jsSubstring (s : List Char) (a b : Nat) : List Char :=
  if a ≤ b then (s.drop a).take (b - a) else (s.drop b).take (a - b)

/-- Whether a token is a text run (`typeof token === "string"`). -/
def Token.isTextTok : Token → Bool
  | .text _ => true
  | .ref _ => false

/-- Invariant I1: no two consecutive tokens are both text. -/
def I1 (l : List Token) : Prop :=
  l.Chain' fun a b => ¬(a.isTextTok = true ∧ b.isTextTok = true)

/-- Invariant I2: no text token holds the empty string. -/
def I2 (l : List Token) : Prop := ∀ t ∈ l, t ≠ Token.text []

/-- Executable check for I1. -/
def i1b : List Token → Bool
  | [] => true
  | [_] => true
  | x :: y :: rest => !(x.isTextTok && y.isTextTok) && i1b (y :: rest)

instance : DecidablePred I1 := fun l =>
  decidable_of_iff (i1b l = true) (by
    induction l with
    | nil => simp [i1b, I1]
    | cons x rest ih =>
      cases rest with
      | nil => simp [i1b, I1]
      | cons y rest' =>
        rw [i1b, I1, List.chain'_cons, ← I1, ← ih]
        cases hx : x.isTextTok <;> cases hy : y.isTextTok <;> simp [hx, hy])

instance : DecidablePred I2 := fun l =>
  inferInstanceAs (Decidable (∀ t ∈ l, t ≠ Token.text []))

/-- Result of the flat-offset locator: first affected token index `i`, one
past the last consumed token `j`, and the leftover `head`/`tail` fragments. -/
structure Loc where
  i : Nat
  j : Nat
  head : List Char
  tail : List Char
deriving DecidableEq, Repr

/-- The locator loop (src lines 233-254, duplicated at 331-352).  `n` is
`tokens.length`, `value` the rendered flat value.  `io` carries the
`i === -1` state together with the captured `head`; a `none` at the end
means `i = tokens.length`. -/
def locateAux (d : Dict) (miss value : List Char) (start e n : Nat) :
    List Token → Nat → Nat → Option (Nat × List Char) → Loc
  | [], _total, j, io =>
    ⟨(io.getD (n, [])).1, j, (io.getD (n, [])).2, value.drop e⟩
  | tok :: rest, total, j, io =>
    if e ≤ total then
      ⟨(((if io.isNone ∧ start < total + tokenLen d miss tok then
            some (j, jsSubstring value total start) else io)).getD (n, [])).1, j,
       (((if io.isNone ∧ start < total + tokenLen d miss tok then
            some (j, jsSubstring value total start) else io)).getD (n, [])).2,
       jsSubstring value e total⟩
    else
      locateAux d miss value start e n rest (total + tokenLen d miss tok) (j + 1)
        (if io.isNone ∧ start < total + tokenLen d miss tok then
          some (j, jsSubstring value total start) else io)

/-- Flat-offset locator over a token sequence (entry point of the scan). -/
def locate (d : Dict) (miss : List Char) (toks : List Token) (start e : Nat) : Loc :=
  locateAux d miss (flatValue d miss toks) start e toks.length toks 0 0 none

/-- Whether an optional token is a text run (`typeof x === "string"` on a
possibly-undefined array slot). -/
def isTextO : Option Token → Bool
  | some (.text _) => true
  | _ => false

/-- Content of an optional token when it is a text run, `[]` otherwise. -/
def textOf : Option Token → List Char
  | some (.text s) => s
  | _ => []

/-- Step 1 of `updateTokensAndSuggestions` (src 151-162): fold `tail` into
`insertTokens` and capture `beforeCaretText`.  Returns the updated list and
`beforeCaretText`. -/
def foldTail (insertTokens : List Token) (head tail : List Char) :
    List Token × List Char :=
  match insertTokens.getLast? with
  | some (.text s) =>
    (insertTokens.dropLast ++ [Token.text (s ++ tail)],
     if insertTokens.length = 1 then head ++ s else s)
  | _ =>
    (if tail ≠ [] then insertTokens ++ [Token.text tail] else insertTokens, [])

/-- Step 2 (src 163-166): fold `head` into the front of `insertTokens`. -/
def foldHead (head : List Char) (it1 : List Token) : List Token :=
  match it1 with
  | Token.text s :: rest => Token.text (head ++ s) :: rest
  | _ => if head ≠ [] then Token.text head :: it1 else it1

/-- Src 168-171: merge the token after the insertion into its last element
when `lastToken` was a string and that successor is a string.  The source
casts `newTokens[p-1]` to string there; inside the pipeline the guard
implies position `p-1` is indeed text, so the extra match is equivalent. -/
def mergeEnd (lastIsText : Bool) (nt0 : List Token) (p : Nat) : List Token :=
  if lastIsText then
    match nt0[p]?, nt0[p - 1]? with
    | some (.text b), some (.text a) =>
      (nt0.set (p - 1) (Token.text (a ++ b))).eraseIdx p
    | _, _ => nt0
  else nt0

/-- Src 172-178: merge `newTokens[i]` into `newTokens[i-1]` when both are
strings (JS index `-1` yields `undefined`, hence the `1 ≤ i` guard), also
extending `beforeCaretText` when the insertion was a single element. -/
def mergeStart (L : Nat) (nt1 : List Token) (i : Nat) (bct : List Char) :
    List Token × Nat × List Char :=
  if 1 ≤ i then
    match nt1[i - 1]?, nt1[i]? with
    | some (.text a), some (.text b) =>
      ((nt1.set (i - 1) (Token.text (a ++ b))).eraseIdx i, i - 1,
       if L = 1 then a ++ bct else bct)
    | _, _ => (nt1, i, bct)
  else (nt1, i, bct)

/-- JS falsiness of `newTokens[i]`: an out-of-range slot (`undefined`) or an
empty string run. -/
def dropEmptyTok (nt : List Token) (i : Nat) : Bool :=
  match nt[i]? with
  | none => true
  | some (.text s) => s.isEmpty
  | some (.ref _) => false

/-- Token/caret result of the splice half of `updateTokensAndSuggestions`. -/
structure SpliceCore where
  newTokens : List Token
  tokenIndex : Int
  beforeCaretText : List Char
deriving DecidableEq, Repr

/-- The splice half of `updateTokensAndSuggestions` (src 151-184): fold
`tail` and `head`, splice (`tokens.toSpliced(i, j - i, ...insertTokens)`,
whose negative delete count clamps to zero, hence `max i j`), re-merge both
boundaries, and drop the caret token if it became falsy (src 180-183). -/
def updateTokensCore (toks : List Token) (head : List Char)
    (insertTokens : List Token) (tail : List Char) (i j : Nat) : SpliceCore :=
  let lastIsText := isTextO insertTokens.getLast?
  let p1 := foldTail insertTokens head tail
  let it2 := foldHead head p1.1
  let L := it2.length
  let nt0 := toks.take i ++ it2 ++ toks.drop (max i j)
  let nt1 := mergeEnd lastIsText nt0 (i + L)
  let p2 := mergeStart L nt1 i p1.2
  let tokenIndex : Int := (p2.2.1 : Int) + L - 1
  if dropEmptyTok p2.1 p2.2.1 then
    ⟨(p2.1).eraseIdx p2.2.1, tokenIndex - 1, p2.2.2⟩
  else ⟨p2.1, tokenIndex, p2.2.2⟩

/-- Full result of a splice: new sequence, caret anchor
(`insertTokenPos`), and the absolute caret offset (`caretPos`, src 211). -/
structure SpliceOut where
  newTokens : List Token
  tokenIndex : Int
  beforeCaretText : List Char
  caretPos : Nat
deriving DecidableEq, Repr

/-- Splice plus the committed caret offset `start + length` (src 211-212). -/
def updateTokens (toks : List Token) (head : List Char)
    (insertTokens : List Token) (length : Nat) (tail : List Char)
    (start : Nat) (i j : Nat) : SpliceOut :=
  let c := updateTokensCore toks head insertTokens tail i j
  ⟨c.newTokens, c.tokenIndex, c.beforeCaretText, start + length⟩

/-- A typed edit through `beforeInputCallback` (src 215-256): locate the
selection `[start, e)` in the flat value and splice in the single text run
`text` (the source passes `[text]` with `text.length`).  `start`/`e` are the
offsets after the `deleteContentBackward`/`deleteContentForward`
adjustment; drag-originated events return before reaching this point. -/
def beforeInputEdit (d : Dict) (miss : List Char) (toks : List Token)
    (start e : Nat) (text : List Char) : SpliceOut :=
  let loc := locate d miss toks start e
  updateTokens toks loc.head [Token.text text] text.length loc.tail start loc.i loc.j

/-- Append a string to the copy result, merging with a trailing string as
`result[result.length - 1] += text` does. -/
def pushText (res : List Token) (s : List Char) : List Token :=
  match res.getLast? with
  | some (.text a) => res.dropLast ++ [Token.text (a ++ s)]
  | _ => res ++ [Token.text s]

/-- The `handleCopy` walk (src 273-307) accumulating the copied tokens and
their total character length. -/
def copyAux (d : Dict) (miss : List Char) (start e : Nat) :
    List Token → Nat → List Token → Nat → List Token × Nat
  | [], _total, res, len => (res, len)
  | tok :: rest, total, res, len =>
    let text := tokenTextQQ d miss tok
    let tl := text.length
    if total < start then
      if start < total + tl then
        let sl := jsSubstring text (start - total) (min tl (e - total))
        copyAux d miss start e rest (total + tl) (res ++ [Token.text sl]) (len + sl.length)
      else
        copyAux d miss start e rest (total + tl) res len
    else if total < e then
      if total + tl ≤ e then
        match tok with
        | .text s => copyAux d miss start e rest (total + tl) (pushText res s) (len + tl)
        | .ref _ => copyAux d miss start e rest (total + tl) (res ++ [tok]) (len + tl)
      else
        let sl := text.take (e - total)
        copyAux d miss start e rest (total + tl) (pushText res sl) (len + sl.length)
    else (res, len)

/-- Copy handler `handleCopy` (src 266-309): `none` models the
empty-selection early return (no payload written); otherwise the
serialized `{ tokens, length }` payload. -/
def handleCopy (d : Dict) (miss : List Char) (toks : List Token)
    (start e : Nat) : Option (List Token × Nat) :=
  if start = e then none else some (copyAux d miss start e toks 0 [] 0)

/-- A decoded clipboard payload: either field may be missing/null
(`Option`), and a `length` of `0` is falsy. -/
structure RawPaste where
  tokens : Option (List Token)
  length : Option Nat
deriving DecidableEq, Repr

/-- Observable outcome of `handlePaste`: whether `preventDefault` ran and
the splice performed, if any (`none` = token sequence unchanged). -/
structure PasteOut where
  prevented : Bool
  splice : Option SpliceOut
deriving DecidableEq, Repr

/-- Paste handler `handlePaste` (src 317-355).  `decoded = none` models a
payload string that fails `JSON.parse`; the falsy checks on
`tokens`/`length` come before `preventDefault` and the locator/splice
re-use of the typed-edit pipeline. -/
def handlePaste (d : Dict) (miss : List Char) (toks : List Token)
    (start e : Nat) (decoded : Option RawPaste) : PasteOut :=
  match decoded with
  | none => ⟨false, none⟩
  | some p =>
    match p.tokens, p.length with
    | some tks, some L =>
      if L = 0 then ⟨false, none⟩
      else
        let loc := locate d miss toks start e
        ⟨true, some (updateTokens toks loc.head tks L loc.tail start loc.i loc.j)⟩
    | _, _ => ⟨false, none⟩

/-- Suggestion commit `applySuggestion` (src 357-369), token part: split the text token at the
committed caret anchor, keep the remainder (dropped when falsy), insert the
reference, and re-insert the prefix before `startPos` when nonzero.  The
source casts `currentTokens[tokenIndex]` to string; the theorems only use
this under the hypothesis that the anchored token is a text run. -/
def applySuggestion (toks : List Token) (tokenIndex cp startPos : Nat)
    (key : List Char) : List Token :=
  let text := textOf toks[tokenIndex]?
  let nt := toks.set tokenIndex (Token.text (text.drop cp))
  let nt2 := if dropEmptyTok nt tokenIndex then nt.eraseIdx tokenIndex else nt
  let nt3 := nt2.insertIdx tokenIndex (Token.ref key)
  if startPos ≠ 0 then nt3.insertIdx tokenIndex (Token.text (text.take startPos))
  else nt3

/-- The default trigger `/^@([^@]*)$/` applied to a suffix: it matches iff
the suffix starts with `@` and contains no further `@`; the capture is
everything after the `@`. -/
def defaultTrigger (s : List Char) : Option (List Char) :=
  match s with
  | '@' :: rest => if rest.contains '@' then none else some rest
  | _ => none

/-- One trigger-list configuration `{ trigger?, items }`; a trigger is
modelled extensionally as the partial match function returning the capture
group.  `none` selects the default trigger (`list.trigger ?? defaultTrigger`). -/
structure TriggerList where
  trigger : Option (List Char → Option (List Char))
  items : List (List Char)

/-- JS `String.prototype.toLowerCase`, per character. -/
def lowerStr (s : List Char) : List Char := s.map Char.toLower

/-- JS `v.startsWith(g)`. -/
def strStarts : List Char → List Char → Bool
  | _, [] => true
  | [], _ :: _ => false
  | b :: v', a :: g' => a == b && strStarts v' g'

/-- The prefix test of src 196-201 under the `caseSensitive` flag. -/
def capTest (cs : Bool) (value g : List Char) : Bool :=
  if cs then strStarts value g else strStarts (lowerStr value) (lowerStr g)

/-- The per-key position scan (src 193-205) over the remaining positions
`js`.  `Except.error ()` models the TypeError thrown by
`data[key].displayText` (no optional chaining in the source) when the key
is missing and the trigger matched at that position. -/
def scanKey (d : Dict) (cs : Bool) (trig : List Char → Option (List Char))
    (bct key : List Char) : List Nat → Except Unit (Option Nat)
  | [] => .ok none
  | jj :: rest =>
    match trig (bct.drop jj) with
    | none => scanKey d cs trig bct key rest
    | some g =>
      match lookupD d key with
      | none => .error ()
      | some td =>
        if capTest cs td.displayText g then .ok (some jj)
        else scanKey d cs trig bct key rest

/-- The key loop of one trigger list (src 192-205), in item order. -/
def scanItems (d : Dict) (cs : Bool) (trig : List Char → Option (List Char))
    (bct : List Char) : List (List Char) → Except Unit (List (List Char × Nat))
  | [] => .ok []
  | key :: rest =>
    match scanKey d cs trig bct key (List.range bct.length) with
    | .error u => .error u
    | .ok none => scanItems d cs trig bct rest
    | .ok (some jj) =>
      match scanItems d cs trig bct rest with
      | .error u => .error u
      | .ok sugg => .ok ((key, jj) :: sugg)

/-- The whole suggestion recomputation (src 186-207): lists in order,
results concatenated. -/
def computeSuggestions (d : Dict) (cs : Bool) (ls : List TriggerList)
    (bct : List Char) : Except Unit (List (List Char × Nat)) :=
  match ls with
  | [] => .ok []
  | l :: rest =>
    match scanItems d cs (l.trigger.getD defaultTrigger) bct l.items with
    | .error u => .error u
    | .ok s1 =>
      match computeSuggestions d cs rest bct with
      | .error u => .error u
      | .ok s2 => .ok (s1 ++ s2)

/-- Modelled from the spec (section 4.3): position `jj` is a hit for a key
when the trigger matches the suffix there and the key's resolved display
text starts with the capture; a key with no dictionary entry never hits. -/
def keyHit (d : Dict) (cs : Bool) (trig : List Char → Option (List Char))
    (bct key : List Char) (jj : Nat) : Bool :=
  match trig (bct.drop jj), lookupD d key with
  | some g, some td => capTest cs td.displayText g
  | _, _ => false

/-- Modelled from the spec (section 4.3): the smallest `startPos` at which
the key hits.  This is the specification-side matcher compared against
`scanKey` for claim C4. -/
def leastStart (d : Dict) (cs : Bool) (trig : List Char → Option (List Char))
    (bct key : List Char) : Option Nat :=
  (List.range bct.length).find? (keyHit d cs trig bct key)

/-- Modelled from the spec (section 4.3): results concatenated in
list-then-item order, one optional suggestion per item entry. -/
def specSuggestions (d : Dict) (cs : Bool) (ls : List TriggerList)
    (bct : List Char) : List (List Char × Nat) :=
  (ls.map fun l =>
    l.items.filterMap fun key =>
      (leastStart d cs (l.trigger.getD defaultTrigger) bct key).map
        fun jj => (key, jj)).flatten

instance {ε α : Type} [DecidableEq ε] [DecidableEq α] : DecidableEq (Except ε α) :=
  fun a b =>
    match a, b with
    | .error e, .error f =>
      if h : e = f then .isTrue (by rw [h]) else .isFalse (by simp [h])
    | .ok x, .ok y =>
      if h : x = y then .isTrue (by rw [h]) else .isFalse (by simp [h])
    | .error _, .ok _ => .isFalse (by simp)
    | .ok _, .error _ => .isFalse (by simp)

def dictC4 : Dict := [("ann".toList, ⟨"Anna".toList⟩), ("bob".toList, ⟨"Bob".toList⟩)]

/-- Sum of the `??`-measured token lengths, the quantity the locator loops
accumulate in `total`. -/
def sumLen (d : Dict) (miss : List Char) (l : List Token) : Nat :=
  (l.map (tokenLen d miss)).sum

/-- Pointwise agreement of the two fallback semantics plus nonemptiness of
every resolved text: under this condition the `??`-measured offsets of the
locator line up with the `||`-rendered flat value.  For a text token it
reduces to I2; for a reference token it says the key resolves (directly or
through the fallback) to a nonempty display text. -/
def GoodToks (d : Dict) (miss : List Char) (toks : List Token) : Prop :=
  ∀ tok ∈ toks, tokenTextOr d miss tok = tokenTextQQ d miss tok ∧
    tokenTextQQ d miss tok ≠ []

instance (d : Dict) (miss : List Char) (toks : List Token) :
    Decidable (GoodToks d miss toks) :=
  inferInstanceAs (Decidable (∀ tok ∈ toks,
    tokenTextOr d miss tok = tokenTextQQ d miss tok ∧
      tokenTextQQ d miss tok ≠ []))

/-- Composite correctness statement for the flat-offset locator: the indices
are ordered and in range, and `head`/`tail` reassemble the flat value around
the selection. -/
abbrev LocSpec (d : Dict) (miss : List Char) (toks : List Token) (start e : Nat)
    (L : Loc) : Prop :=
  L.i ≤ L.j ∧ L.j ≤ toks.length ∧
  flatValue d miss (toks.take L.i) ++ L.head = (flatValue d miss toks).take start ∧
  L.tail ++ flatValue d miss (toks.drop L.j) = (flatValue d miss toks).drop e

/-- The tail end of the splice (src 172-183) as it acts on the token list:
start-boundary merge followed by the falsy-drop of the caret token. -/
def stage2 (nt1 : List Token) (i : Nat) (bct : List Char) : List Token :=
  if dropEmptyTok (mergeStart 1 nt1 i bct).1 (mergeStart 1 nt1 i bct).2.1 then
    (mergeStart 1 nt1 i bct).1.eraseIdx (mergeStart 1 nt1 i bct).2.1
  else (mergeStart 1 nt1 i bct).1

/-- Modelled from the spec (section 4.4): the overlap of the selection
`[start, e)` with the token stream beginning at flat offset `total`, in
`??`-resolved characters — what copy is meant to extract. -/
def sliceQQ (d : Dict) (miss : List Char) (start e : Nat) :
    List Token → Nat → List Char
  | [], _ => []
  | tok :: rest, total =>
    ((tokenTextQQ d miss tok).take (e - total)).drop (start - total) ++
      sliceQQ d miss start e rest (total + (tokenTextQQ d miss tok).length)

/-- Modelled from the spec (section 4.4): whether some occurrence of the
reference token `k`, at its flat span `[total, total + len)`, is fully
covered by the selection `[start, e)` (the `total < e` conjunct only
matters for zero-length display texts, whose empty span sits at the
selection edge). -/
def coveredRefB (d : Dict) (miss : List Char) (start e : Nat) (k : List Char) :
    List Token → Nat → Bool
  | [], _ => false
  | Token.text s :: rest, total =>
    coveredRefB d miss start e k rest (total + s.length)
  | Token.ref k' :: rest, total =>
    (k' == k && decide (start ≤ total) && decide (total < e) &&
      decide (total + (tokenTextQQ d miss (Token.ref k')).length ≤ e)) ||
    coveredRefB d miss start e k rest
      (total + (tokenTextQQ d miss (Token.ref k')).length)

/-- Whether flat position `pos` falls strictly inside the display span of a
Reference token (measured with the locator's `??` lengths). -/
def insideRefB (d : Dict) (miss : List Char) (pos : Nat) :
    List Token → Nat → Bool
  | [], _ => false
  | Token.text s :: rest, total => insideRefB d miss pos rest (total + s.length)
  | Token.ref k' :: rest, total =>
    (decide (total < pos) &&
      decide (pos < total + (tokenTextQQ d miss (Token.ref k')).length)) ||
    insideRefB d miss pos rest (total + (tokenTextQQ d miss (Token.ref k')).length)

def dW2 : Dict := [("k".toList, ⟨"XY".toList⟩)]

def toksW2 : List Token := [Token.text "ab".toList, Token.ref "k".toList]

def dX2 : Dict := [("k".toList, ⟨[]⟩)]

def toksW1 : List Token := [Token.text "ab".toList, Token.ref "k".toList]

def toksW1b : List Token := [Token.text "hello @An".toList]

def dC1x : Dict := [("r".toList, ⟨"RR".toList⟩), ("p".toList, ⟨"PP".toList⟩)]

def toksC1x : List Token := [Token.ref "r".toList, Token.text "abc".toList]

def toksW8 : List Token :=
  [Token.text "ab".toList, Token.ref "k".toList, Token.text "cd".toList]

def toksC3x : List Token := [Token.ref "k".toList, Token.text "ab".toList]

/-! Generic list-surgery lemmas, used to reason about the in-place merges
of the splice engine (`newTokens[q-1] += newTokens[q]; splice(q, 1)`). -/

theorem getElem?_mid {α : Type} (A : List α) (x : α) (B : List α) :
    (A ++ x :: B)[A.length]? = some x := by
  induction A with
  | nil => simp
  | cons a A ih => simpa using ih

theorem getElem?_mid_succ {α : Type} (A : List α) (x : α) (B : List α) :
    (A ++ x :: B)[A.length + 1]? = B[0]? := by
  induction A with
  | nil => simp
  | cons a A ih => simpa using ih

theorem set_mid {α : Type} (A : List α) (x y : α) (B : List α) :
    (A ++ x :: B).set A.length y = A ++ y :: B := by
  induction A with
  | nil => rfl
  | cons a A ih => simp [ih]

theorem eraseIdx_mid {α : Type} (A : List α) (x : α) (B : List α) :
    (A ++ x :: B).eraseIdx A.length = A ++ B := by
  induction A with
  | nil => rfl
  | cons a A ih => simp [ih]

/-! Flattening is preserved by each normalization step of the splice. -/

theorem flatValue_append (d : Dict) (miss : List Char) (l₁ l₂ : List Token) :
    flatValue d miss (l₁ ++ l₂) = flatValue d miss l₁ ++ flatValue d miss l₂ := by
  simp [flatValue]

theorem flatValue_cons (d : Dict) (miss : List Char) (t : Token) (l : List Token) :
    flatValue d miss (t :: l) = tokenTextOr d miss t ++ flatValue d miss l := by
  simp [flatValue]

theorem flatValue_merge (d : Dict) (miss : List Char) (l : List Token) :
    ∀ (q : Nat) (a b : List Char),
      l[q]? = some (Token.text a) → l[q + 1]? = some (Token.text b) →
      flatValue d miss ((l.set q (Token.text (a ++ b))).eraseIdx (q + 1)) =
        flatValue d miss l := by
  induction l with
  | nil => intro q a b ha _; simp at ha
  | cons x l ih =>
    intro q a b ha hb
    cases q with
    | zero =>
      cases l with
      | nil => simp at hb
      | cons y l' =>
        simp only [List.getElem?_cons_succ, List.getElem?_cons_zero,
          Option.some.injEq] at ha hb
        subst ha
        subst hb
        simp [flatValue_cons, tokenTextOr, List.append_assoc]
    | succ q' =>
      simp only [List.getElem?_cons_succ] at ha hb
      simp only [List.set_cons_succ, List.eraseIdx_cons_succ, flatValue_cons]
      rw [ih q' a b ha hb]

theorem flatValue_eraseFalsy (d : Dict) (miss : List Char) (l : List Token) :
    ∀ i : Nat, dropEmptyTok l i = true →
      flatValue d miss (l.eraseIdx i) = flatValue d miss l := by
  induction l with
  | nil => intro i _; simp
  | cons x l ih =>
    intro i h
    cases i with
    | zero =>
      cases x with
      | text s =>
        simp only [dropEmptyTok, List.getElem?_cons_zero, List.isEmpty_iff] at h
        subst h
        simp [flatValue_cons, tokenTextOr]
      | ref k => simp [dropEmptyTok] at h
    | succ i' =>
      simp only [dropEmptyTok, List.getElem?_cons_succ] at h
      simp only [List.eraseIdx_cons_succ, flatValue_cons]
      rw [ih i' h]

theorem flatValue_foldTail (d : Dict) (miss : List Char) (ins : List Token)
    (head tail : List Char) :
    flatValue d miss (foldTail ins head tail).1 = flatValue d miss ins ++ tail := by
  rcases List.eq_nil_or_concat ins with h | ⟨L, x, h⟩
  · subst h
    by_cases ht : tail = [] <;>
      simp [foldTail, ht, flatValue_cons, flatValue, tokenTextOr]
  · subst h
    cases x with
    | text s =>
      simp [foldTail, List.getLast?_concat, List.dropLast_concat, flatValue_append,
        flatValue_cons, flatValue, tokenTextOr, List.append_assoc]
    | ref k =>
      by_cases ht : tail = [] <;>
        simp [foldTail, List.getLast?_concat, ht, flatValue_append, flatValue_cons,
          flatValue, tokenTextOr, List.append_assoc]

theorem flatValue_foldHead (d : Dict) (miss : List Char) (head : List Char)
    (it1 : List Token) :
    flatValue d miss (foldHead head it1) = head ++ flatValue d miss it1 := by
  cases it1 with
  | nil => by_cases hh : head = [] <;> simp [foldHead, hh, flatValue, tokenTextOr]
  | cons x rest =>
    cases x with
    | text s => simp [foldHead, flatValue_cons, tokenTextOr, List.append_assoc]
    | ref k =>
      by_cases hh : head = [] <;> simp [foldHead, hh, flatValue_cons, tokenTextOr]

theorem foldTail_fst_ne_nil (ins : List Token) (head tail : List Char)
    (h : isTextO ins.getLast? = true) : (foldTail ins head tail).1 ≠ [] := by
  rcases List.eq_nil_or_concat ins with hn | ⟨L, x, hc⟩
  · subst hn; simp [isTextO] at h
  · subst hc
    cases x with
    | text s => simp [foldTail, List.getLast?_concat, List.dropLast_concat]
    | ref k => simp [isTextO, List.getLast?_concat] at h

theorem foldHead_ne_nil (head : List Char) (it1 : List Token) (h : it1 ≠ []) :
    foldHead head it1 ≠ [] := by
  cases it1 with
  | nil => exact absurd rfl h
  | cons x rest =>
    cases x with
    | text s => simp [foldHead]
    | ref k => by_cases hh : head = [] <;> simp [foldHead, hh]

theorem flatValue_mergeEnd (d : Dict) (miss : List Char) (lt : Bool)
    (nt0 : List Token) (p : Nat) (hp : 1 ≤ p) :
    flatValue d miss (mergeEnd lt nt0 p) = flatValue d miss nt0 := by
  cases lt with
  | false => rfl
  | true =>
    unfold mergeEnd
    simp only [if_true]
    split
    · next b a hb ha =>
      have h := flatValue_merge d miss nt0 (p - 1) a b ha
        (by rw [Nat.sub_add_cancel hp]; exact hb)
      rw [Nat.sub_add_cancel hp] at h
      exact h
    · rfl

theorem flatValue_mergeStart (d : Dict) (miss : List Char) (L : Nat)
    (nt1 : List Token) (i : Nat) (bct : List Char) :
    flatValue d miss (mergeStart L nt1 i bct).1 = flatValue d miss nt1 := by
  unfold mergeStart
  split
  · next hi =>
    split
    · next a b ha hb =>
      have h := flatValue_merge d miss nt1 (i - 1) a b ha
        (by rw [Nat.sub_add_cancel hi]; exact hb)
      rw [Nat.sub_add_cancel hi] at h
      exact h
    · rfl
  · rfl

theorem length_flat_eq_sumLen (d : Dict) (miss : List Char) (l : List Token)
    (hg : ∀ tok ∈ l, tokenTextOr d miss tok = tokenTextQQ d miss tok) :
    (flatValue d miss l).length = sumLen d miss l := by
  unfold flatValue sumLen
  rw [List.length_flatten, List.map_map]
  refine congrArg List.sum (List.map_congr_left fun tok h => ?_)
  simp only [Function.comp_apply, tokenLen, hg tok h]

theorem goodToks_take (d : Dict) (miss : List Char) (toks : List Token)
    (hg : GoodToks d miss toks) (j : Nat) : GoodToks d miss (toks.take j) :=
  fun tok h => hg tok (List.take_subset j toks h)

theorem goodToks_drop (d : Dict) (miss : List Char) (toks : List Token)
    (hg : GoodToks d miss toks) (j : Nat) : GoodToks d miss (toks.drop j) :=
  fun tok h => hg tok (List.drop_subset j toks h)

theorem flat_split (d : Dict) (miss : List Char) (toks : List Token) (j : Nat) :
    flatValue d miss toks =
      flatValue d miss (toks.take j) ++ flatValue d miss (toks.drop j) := by
  rw [← flatValue_append, List.take_append_drop]

theorem flat_take_eq (d : Dict) (miss : List Char) (toks : List Token)
    (hg : GoodToks d miss toks) (j : Nat) :
    flatValue d miss (toks.take j) =
      (flatValue d miss toks).take (sumLen d miss (toks.take j)) := by
  rw [flat_split d miss toks j]
  exact (List.take_left' (length_flat_eq_sumLen d miss _
    (fun tok h => (goodToks_take d miss toks hg j tok h).1))).symm

theorem flat_drop_eq (d : Dict) (miss : List Char) (toks : List Token)
    (hg : GoodToks d miss toks) (j : Nat) :
    flatValue d miss (toks.drop j) =
      (flatValue d miss toks).drop (sumLen d miss (toks.take j)) := by
  conv_rhs => rw [flat_split d miss toks j]
  exact (List.drop_left' (length_flat_eq_sumLen d miss _
    (fun tok h => (goodToks_take d miss toks hg j tok h).1))).symm

theorem sumLen_append (d : Dict) (miss : List Char) (l₁ l₂ : List Token) :
    sumLen d miss (l₁ ++ l₂) = sumLen d miss l₁ + sumLen d miss l₂ := by
  simp [sumLen]

theorem head_capture (d : Dict) (miss : List Char) (toks : List Token)
    (hg : GoodToks d miss toks) (j start : Nat)
    (htot : sumLen d miss (toks.take j) ≤ start) :
    flatValue d miss (toks.take j) ++
      jsSubstring (flatValue d miss toks) (sumLen d miss (toks.take j)) start =
      (flatValue d miss toks).take start := by
  rw [jsSubstring, if_pos htot, flat_take_eq d miss toks hg j]
  conv_rhs => rw [show start = sumLen d miss (toks.take j) + (start - sumLen d miss (toks.take j)) from (Nat.add_sub_cancel' htot).symm, List.take_add]

theorem tail_glue (d : Dict) (miss : List Char) (toks : List Token)
    (hg : GoodToks d miss toks) (j e : Nat)
    (he : e ≤ sumLen d miss (toks.take j)) :
    jsSubstring (flatValue d miss toks) e (sumLen d miss (toks.take j)) ++
      flatValue d miss (toks.drop j) = (flatValue d miss toks).drop e := by
  rw [jsSubstring, if_pos he, flat_drop_eq d miss toks hg j]
  have h1 : (flatValue d miss toks).drop (sumLen d miss (toks.take j)) =
      ((flatValue d miss toks).drop e).drop (sumLen d miss (toks.take j) - e) := by
    rw [List.drop_drop, Nat.add_sub_cancel' he]
  rw [h1, List.take_append_drop]

theorem locateAux_spec (d : Dict) (miss : List Char) (toks : List Token)
    (start e : Nat) (hg : GoodToks d miss toks) (hse : start ≤ e) :
    ∀ (rest : List Token) (total j : Nat) (io : Option (Nat × List Char)),
      rest = toks.drop j → j ≤ toks.length →
      total = sumLen d miss (toks.take j) →
      (io = none → total ≤ start) →
      (∀ q, io = some q → q.1 ≤ j ∧
        flatValue d miss (toks.take q.1) ++ q.2 =
          (flatValue d miss toks).take start) →
      LocSpec d miss toks start e
        (locateAux d miss (flatValue d miss toks) start e toks.length rest total j io) := by
  intro rest
  induction rest with
  | nil =>
    intro total j io hdrop hj htotal hnone hsome
    have hjn : j = toks.length := by
      have h := List.drop_eq_nil_iff.mp hdrop.symm
      omega
    subst hjn
    rw [locateAux]
    unfold LocSpec
    rcases io with _ | ⟨i0, h0⟩
    · have hts : total ≤ start := hnone rfl
      simp only [Option.getD_none, List.drop_length]
      refine ⟨le_refl _, le_refl _, ?_, ?_⟩
      · rw [List.take_length, List.append_nil]
        have hlen : (flatValue d miss toks).length ≤ start := by
          have h := length_flat_eq_sumLen d miss toks (fun tok hm => (hg tok hm).1)
          rw [List.take_length] at htotal
          omega
        exact (List.take_of_length_le hlen).symm
      · rw [show flatValue d miss [] = [] from rfl, List.append_nil]
    · obtain ⟨hq1, hq2⟩ := hsome (i0, h0) rfl
      simp only [Option.getD_some, List.drop_length]
      exact ⟨hq1, le_refl _, hq2,
        by rw [show flatValue d miss [] = [] from rfl, List.append_nil]⟩
  | cons tok rest' ih =>
    intro total j io hdrop hj htotal hnone hsome
    have hj0 : toks[j]? = some tok := by
      have h := List.getElem?_drop toks j 0
      rw [← hdrop] at h
      simpa using h.symm
    have hjlt : j < toks.length := by
      rcases List.getElem?_eq_some_iff.mp hj0 with ⟨h, _⟩
      exact h
    have hmem : tok ∈ toks := by
      rcases List.getElem?_eq_some_iff.mp hj0 with ⟨hlt, heq⟩
      exact heq ▸ List.getElem_mem hlt
    have htake : toks.take (j + 1) = toks.take j ++ [tok] := by
      rw [List.take_succ, hj0]
      rfl
    have hdrop' : rest' = toks.drop (j + 1) := by
      have h : toks.drop (j + 1) = (toks.drop j).drop 1 := by
        rw [List.drop_drop, Nat.add_comm]
      rw [h, ← hdrop]
      rfl
    have hlen1 : 1 ≤ tokenLen d miss tok := by
      have h2 := (hg tok hmem).2
      unfold tokenLen
      rcases h : tokenTextQQ d miss tok with _ | ⟨c, cs⟩
      · exact absurd h h2
      · simp
    have htotal' : total + tokenLen d miss tok = sumLen d miss (toks.take (j + 1)) := by
      rw [htake, sumLen_append, htotal]
      simp [sumLen]
    rw [locateAux]
    rcases io with _ | ⟨i0, h0⟩
    · by_cases hguard : start < total + tokenLen d miss tok
      · have hts : total ≤ start := hnone rfl
        have hnew : ∀ q, some (j, jsSubstring (flatValue d miss toks) total start) = some q →
            q.1 ≤ j + 1 ∧ flatValue d miss (toks.take q.1) ++ q.2 =
              (flatValue d miss toks).take start := by
          intro q hq
          cases hq
          refine ⟨Nat.le_succ j, ?_⟩
          rw [htotal] at hts ⊢
          exact head_capture d miss toks hg j start hts
        by_cases hbreak : e ≤ total
        · rw [if_pos hbreak, if_pos ⟨rfl, hguard⟩]
          unfold LocSpec
          refine ⟨le_refl j, le_of_lt hjlt, ?_, ?_⟩
          · exact (hnew _ rfl).2
          · rw [htotal] at hbreak ⊢
            exact tail_glue d miss toks hg j e hbreak
        · rw [if_neg hbreak, if_pos ⟨rfl, hguard⟩]
          exact ih (total + tokenLen d miss tok) (j + 1) _ hdrop' hjlt htotal'
            (by intro h; cases h) hnew
      · have hng : ¬((Option.isNone (none : Option (Nat × List Char)) = true) ∧
            start < total + tokenLen d miss tok) := by
          intro h
          exact hguard h.2
        have hts : total + tokenLen d miss tok ≤ start := by omega
        by_cases hbreak : e ≤ total
        · exfalso
          have h := hnone rfl
          omega
        · rw [if_neg hbreak, if_neg hng]
          exact ih (total + tokenLen d miss tok) (j + 1) _ hdrop' hjlt htotal'
            (fun _ => hts) (by intro q hq; cases hq)
    · have hng : ¬((Option.isNone (some (i0, h0)) = true) ∧
          start < total + tokenLen d miss tok) := by
        intro h
        exact Bool.noConfusion h.1
      by_cases hbreak : e ≤ total
      · rw [if_pos hbreak, if_neg hng]
        unfold LocSpec
        obtain ⟨hq1, hq2⟩ := hsome (i0, h0) rfl
        refine ⟨hq1, le_of_lt hjlt, hq2, ?_⟩
        rw [htotal] at hbreak ⊢
        exact tail_glue d miss toks hg j e hbreak
      · rw [if_neg hbreak, if_neg hng]
        refine ih (total + tokenLen d miss tok) (j + 1) _ hdrop' hjlt htotal' ?_ ?_
        · intro h
          cases h
        · intro q hq
          obtain ⟨hq1, hq2⟩ := hsome q hq
          exact ⟨Nat.le_succ_of_le hq1, hq2⟩

/-- Correctness of the flat-offset locator on a well-formed sequence. -/
theorem locate_spec (d : Dict) (miss : List Char) (toks : List Token)
    (start e : Nat) (hg : GoodToks d miss toks) (hse : start ≤ e) :
    LocSpec d miss toks start e (locate d miss toks start e) := by
  unfold locate
  exact locateAux_spec d miss toks start e hg hse toks 0 0 none
    (by rw [List.drop_zero]) (Nat.zero_le _) (by simp [sumLen])
    (fun _ => Nat.zero_le start) (by intro q hq; cases hq)

theorem updateTokens_newTokens (toks : List Token) (head : List Char)
    (ins : List Token) (length : Nat) (tail : List Char) (start : Nat) (i j : Nat) :
    (updateTokens toks head ins length tail start i j).newTokens =
      (updateTokensCore toks head ins tail i j).newTokens := rfl

theorem updateTokens_caretPos (toks : List Token) (head : List Char)
    (ins : List Token) (length : Nat) (tail : List Char) (start : Nat) (i j : Nat) :
    (updateTokens toks head ins length tail start i j).caretPos = start + length := rfl

theorem flatValue_updateCore (d : Dict) (miss : List Char) (toks : List Token)
    (head : List Char) (ins : List Token) (tail : List Char) (i j : Nat) :
    flatValue d miss (updateTokensCore toks head ins tail i j).newTokens =
      flatValue d miss (toks.take i) ++ head ++ flatValue d miss ins ++ tail ++
        flatValue d miss (toks.drop (max i j)) := by
  have hflat0 : flatValue d miss
      (toks.take i ++ foldHead head (foldTail ins head tail).1 ++ toks.drop (max i j)) =
      flatValue d miss (toks.take i) ++ head ++ flatValue d miss ins ++ tail ++
        flatValue d miss (toks.drop (max i j)) := by
    rw [flatValue_append, flatValue_append, flatValue_foldHead, flatValue_foldTail]
    simp [List.append_assoc]
  have hflat1 : flatValue d miss
      (mergeEnd (isTextO ins.getLast?)
        (toks.take i ++ foldHead head (foldTail ins head tail).1 ++ toks.drop (max i j))
        (i + (foldHead head (foldTail ins head tail).1).length)) =
      flatValue d miss
        (toks.take i ++ foldHead head (foldTail ins head tail).1 ++ toks.drop (max i j)) := by
    cases hl : isTextO ins.getLast? with
    | false => rfl
    | true =>
      have hne : foldHead head (foldTail ins head tail).1 ≠ [] :=
        foldHead_ne_nil head _ (foldTail_fst_ne_nil ins head tail hl)
      have hlen : 1 ≤ (foldHead head (foldTail ins head tail).1).length :=
        Nat.succ_le_of_lt (List.length_pos.mpr hne)
      exact flatValue_mergeEnd d miss true _ _ (le_trans hlen (Nat.le_add_left _ i))
  unfold updateTokensCore
  simp only [apply_ite SpliceCore.newTokens]
  split
  · next hdrop =>
    rw [flatValue_eraseFalsy d miss _ _ hdrop, flatValue_mergeStart, hflat1, hflat0]
  · rw [flatValue_mergeStart, hflat1, hflat0]

/-- Flattening of a full splice, expressed through the locator output. -/
theorem flatValue_spliced (d : Dict) (miss : List Char) (toks : List Token)
    (start e : Nat) (ins : List Token) (length : Nat)
    (hg : GoodToks d miss toks) (hse : start ≤ e) :
    flatValue d miss (updateTokens toks (locate d miss toks start e).head ins length
        (locate d miss toks start e).tail start (locate d miss toks start e).i
        (locate d miss toks start e).j).newTokens =
      (flatValue d miss toks).take start ++ flatValue d miss ins ++
        (flatValue d miss toks).drop e := by
  obtain ⟨hij, hjn, hhead, htail⟩ := locate_spec d miss toks start e hg hse
  rw [updateTokens_newTokens, flatValue_updateCore, max_eq_right hij, ← hhead, ← htail]
  simp [List.append_assoc]

/-- C2 (amended): for a pure-text insertion located at `[start, e)` in the
flat value of a sequence satisfying I1 and I2 whose tokens all resolve to
nonempty display texts with agreeing `??`/`||` semantics (`GoodToks`), the
flat value after the edit is the old flat value with the range `[start, e)`
replaced by the inserted text.  Without the `GoodToks` restriction the
locator's `??`-measured offsets desynchronize from the `||`-rendered value
and the property fails (see `c2_counterexample`). -/
theorem c2_theorem (d : Dict) (miss : List Char) (toks : List Token)
    (start e : Nat) (t : List Char) (h1 : I1 toks) (h2 : I2 toks)
    (hg : GoodToks d miss toks) (hse : start ≤ e)
    (he : e ≤ (flatValue d miss toks).length) :
    flatValue d miss (beforeInputEdit d miss toks start e t).newTokens =
      (flatValue d miss toks).take start ++ t ++ (flatValue d miss toks).drop e := by
  unfold beforeInputEdit
  have h := flatValue_spliced d miss toks start e [Token.text t] t.length hg hse
  rw [show flatValue d miss [Token.text t] = t from by
    simp [flatValue, tokenTextOr]] at h
  exact h

/-- Witness for `c2_theorem`: replacing `[1, 3)` of `"abXY"` with `"Z"`. -/
theorem c2_witness :
    (I1 toksW2 ∧ I2 toksW2 ∧ GoodToks dW2 "M".toList toksW2 ∧ 1 ≤ 3 ∧
      3 ≤ (flatValue dW2 "M".toList toksW2).length) ∧
    flatValue dW2 "M".toList
        (beforeInputEdit dW2 "M".toList toksW2 1 3 "Z".toList).newTokens =
      (flatValue dW2 "M".toList toksW2).take 1 ++ "Z".toList ++
        (flatValue dW2 "M".toList toksW2).drop 3 :=
  ⟨⟨by decide, by decide, by decide, by decide, by decide⟩,
   c2_theorem dW2 "M".toList toksW2 1 3 "Z".toList (by decide) (by decide)
     (by decide) (by decide) (by decide)⟩

/-- Counterexample to C2 as stated: the sequence `[ref "k"]` satisfies I1
and I2 and the dictionary maps `"k"` to an empty displayText; the rendered
value is `"M"` (the `||` fallback) but the locator measures the reference
as length 0 (`??`), so typing `"x"` at offset 0 produces flat value `"Mx"`
instead of the specified `"xM"`. -/
theorem c2_counterexample :
    I1 [Token.ref "k".toList] ∧ I2 [Token.ref "k".toList] ∧
    (0 : Nat) ≤ 0 ∧ 0 ≤ (flatValue dX2 "M".toList [Token.ref "k".toList]).length ∧
    flatValue dX2 "M".toList
        (beforeInputEdit dX2 "M".toList [Token.ref "k".toList] 0 0 "x".toList).newTokens ≠
      (flatValue dX2 "M".toList [Token.ref "k".toList]).take 0 ++ "x".toList ++
        (flatValue dX2 "M".toList [Token.ref "k".toList]).drop 0 := by decide

/-- C6: the caret offset committed after a splice is `start + length`,
where `length` is the logical length of the inserted content (the typed
text's length for the `beforeinput` pipeline, the payload's `length` for a
paste); the caret-write effect then applies it verbatim. -/
theorem c6_theorem :
    (∀ (toks : List Token) (head : List Char) (ins : List Token) (length : Nat)
        (tail : List Char) (start i j : Nat),
      (updateTokens toks head ins length tail start i j).caretPos = start + length) ∧
    (∀ (d : Dict) (miss : List Char) (toks : List Token) (start e : Nat) (t : List Char),
      (beforeInputEdit d miss toks start e t).caretPos = start + t.length) :=
  ⟨fun _ _ _ _ _ _ _ _ => rfl, fun _ _ _ _ _ _ => rfl⟩

/-- C7: a paste whose payload fails to decode, or decodes with falsy
`tokens` or `length`, leaves the sequence unchanged and does not call
`preventDefault` (default platform paste proceeds). -/
theorem c7_theorem (d : Dict) (miss : List Char) (toks : List Token)
    (start e : Nat) (decoded : Option RawPaste)
    (h : decoded = none ∨ ∃ p, decoded = some p ∧
      (p.tokens = none ∨ p.length = none ∨ p.length = some 0)) :
    handlePaste d miss toks start e decoded = ⟨false, none⟩ := by
  rcases h with h | ⟨p, hp, hfals⟩
  · subst h
    rfl
  · subst hp
    rcases p with ⟨ptk, plen⟩
    rcases ptk with _ | tks
    · cases plen <;> rfl
    · rcases plen with _ | L
      · rfl
      · rcases hfals with h | h | h
        · exact absurd h (by simp)
        · exact absurd h (by simp)
        · have hL : L = 0 := Option.some.inj h
          subst hL
          rfl

/-- Witness for `c7_theorem`: a payload with a falsy `length`. -/
theorem c7_witness :
    ((some (⟨some [], some 0⟩ : RawPaste) = none ∨
      ∃ p, some (⟨some [], some 0⟩ : RawPaste) = some p ∧
        (p.tokens = none ∨ p.length = none ∨ p.length = some 0))) ∧
    handlePaste [] [] [] 0 0 (some ⟨some [], some 0⟩) = ⟨false, none⟩ :=
  ⟨Or.inr ⟨⟨some [], some 0⟩, rfl, Or.inr (Or.inr rfl)⟩,
   c7_theorem [] [] [] 0 0 (some ⟨some [], some 0⟩)
     (Or.inr ⟨⟨some [], some 0⟩, rfl, Or.inr (Or.inr rfl)⟩)⟩

/-- C10: a paste that passes the defensive checks commits caret offset
`selectionStart + payload.length` unconditionally; the payload's `length`
is never validated against the flattened display length of its tokens, so
when the two disagree the committed caret is not the position immediately
after the inserted content (`start` plus the inserted display length). -/
theorem c10_theorem (d : Dict) (miss : List Char) (toks : List Token)
    (start e : Nat) (tks : List Token) (L : Nat) (hL : ¬ L = 0) :
    (handlePaste d miss toks start e (some ⟨some tks, some L⟩)).splice.map
        SpliceOut.caretPos = some (start + L) ∧
    (L ≠ (flatValue d miss tks).length →
      (handlePaste d miss toks start e (some ⟨some tks, some L⟩)).splice.map
          SpliceOut.caretPos ≠ some (start + (flatValue d miss tks).length)) := by
  have hred : handlePaste d miss toks start e (some ⟨some tks, some L⟩) =
      if L = 0 then ⟨false, none⟩
      else ⟨true, some (updateTokens toks (locate d miss toks start e).head tks L
        (locate d miss toks start e).tail start (locate d miss toks start e).i
        (locate d miss toks start e).j)⟩ := rfl
  have hsp : (handlePaste d miss toks start e (some ⟨some tks, some L⟩)).splice =
      some (updateTokens toks (locate d miss toks start e).head tks L
        (locate d miss toks start e).tail start (locate d miss toks start e).i
        (locate d miss toks start e).j) := by
    rw [hred, if_neg hL]
  constructor
  · rw [hsp, Option.map_some', updateTokens_caretPos]
  · intro hne h
    rw [hsp, Option.map_some', updateTokens_caretPos] at h
    have h2 : start + L = start + (flatValue d miss tks).length :=
      Option.some.inj h
    exact hne (Nat.add_left_cancel h2)

/-- Witness for `c10_theorem`: payload `{tokens: ["ab"], length: 7}` whose
display length is 2, pasted at offset 0. -/
theorem c10_witness :
    (¬ (7 : Nat) = 0) ∧
    (handlePaste [] "M".toList [] 0 0
        (some ⟨some [Token.text "ab".toList], some 7⟩)).splice.map
        SpliceOut.caretPos = some (0 + 7) ∧
    ((7 : Nat) ≠ (flatValue [] "M".toList [Token.text "ab".toList]).length →
      (handlePaste [] "M".toList [] 0 0
          (some ⟨some [Token.text "ab".toList], some 7⟩)).splice.map
          SpliceOut.caretPos ≠
        some (0 + (flatValue [] "M".toList [Token.text "ab".toList]).length)) :=
  ⟨by decide,
   c10_theorem [] "M".toList [] 0 0 [Token.text "ab".toList] 7 (by decide)⟩

theorem lookupD_cons (p : List Char × TokenData) (d : Dict) (k : List Char) :
    lookupD (p :: d) k = if p.1 == k then some p.2 else lookupD d k := by
  by_cases h : (p.1 == k) = true <;>
    simp [lookupD, List.find?_cons, h]

theorem lookupD_extend (d : Dict) (k k' : List Char) (td : TokenData)
    (habs : lookupD d k = none) :
    lookupD (d ++ [(k, td)]) k' = if k' = k then some td else lookupD d k' := by
  induction d with
  | nil =>
    rw [List.nil_append, lookupD_cons]
    by_cases h : k' = k
    · subst h
      simp
    · have hb : ¬ ((k, td).1 == k') = true := by
        simp only [beq_iff_eq]
        intro he
        exact h he.symm
      rw [if_neg hb, if_neg h]
  | cons p d ih =>
    rw [lookupD_cons] at habs
    have hsplit : ¬ (p.1 == k) = true ∧ lookupD d k = none := by
      by_cases hc : (p.1 == k) = true
      · rw [if_pos hc] at habs
        cases habs
      · rw [if_neg hc] at habs
        exact ⟨hc, habs⟩
    rw [List.cons_append, lookupD_cons, lookupD_cons]
    by_cases h : (p.1 == k') = true
    · have hkk : ¬ k' = k := by
        intro he
        subst he
        exact hsplit.1 h
      rw [if_pos h, if_pos h, if_neg hkk]
    · rw [if_neg h, if_neg h, ih hsplit.2]

theorem tokenTextOr_extend (d : Dict) (miss : List Char) (k : List Char)
    (habs : lookupD d k = none) :
    ∀ tok, tokenTextOr (d ++ [(k, ⟨miss⟩)]) miss tok = tokenTextOr d miss tok := by
  intro tok
  cases tok with
  | text s => rfl
  | ref k' =>
    simp only [tokenTextOr]
    rw [lookupD_extend d k k' ⟨miss⟩ habs]
    by_cases h : k' = k
    · rw [if_pos h, h, habs]
      by_cases hm : miss = [] <;> simp [hm]
    · rw [if_neg h]

theorem tokenLen_extend (d : Dict) (miss : List Char) (k : List Char)
    (habs : lookupD d k = none) :
    ∀ tok, tokenLen (d ++ [(k, ⟨miss⟩)]) miss tok = tokenLen d miss tok := by
  intro tok
  cases tok with
  | text s => rfl
  | ref k' =>
    simp only [tokenLen, tokenTextQQ]
    rw [lookupD_extend d k k' ⟨miss⟩ habs]
    by_cases h : k' = k
    · rw [if_pos h, h, habs]
    · rw [if_neg h]

theorem flatValue_extend (d : Dict) (miss : List Char) (k : List Char)
    (habs : lookupD d k = none) :
    ∀ toks, flatValue (d ++ [(k, ⟨miss⟩)]) miss toks = flatValue d miss toks := by
  intro toks
  unfold flatValue
  exact congrArg List.flatten
    (List.map_congr_left fun tok _ => tokenTextOr_extend d miss k habs tok)

theorem locateAux_congr (d d' : Dict) (miss value : List Char) (start e n : Nat)
    (hlen : ∀ tok, tokenLen d miss tok = tokenLen d' miss tok) :
    ∀ (rest : List Token) (total j : Nat) (io : Option (Nat × List Char)),
      locateAux d miss value start e n rest total j io =
        locateAux d' miss value start e n rest total j io := by
  intro rest
  induction rest with
  | nil => intro _ _ _; rfl
  | cons tok rest ih =>
    intro total j io
    rw [locateAux, locateAux, hlen tok]
    by_cases hbreak : e ≤ total
    · rw [if_pos hbreak, if_pos hbreak]
    · rw [if_neg hbreak, if_neg hbreak, ih]

/-- C9: a Reference token whose key is absent from the dictionary is
rendered with the fallback text and measured with the fallback text's
length, consistently: its rendered text is `missingDataText`, its locator
length is `missingDataText.length`, and extending the dictionary with
`key ↦ missingDataText` (making the fallback the real display text) changes
neither the flat value nor any locator result — and the sequence itself is
never mutated, as resolution is a pure function of the sequence. -/
theorem c9_theorem (d : Dict) (miss : List Char) (k : List Char)
    (habs : lookupD d k = none) :
    tokenTextOr d miss (Token.ref k) = miss ∧
    tokenLen d miss (Token.ref k) = miss.length ∧
    (∀ toks, flatValue (d ++ [(k, ⟨miss⟩)]) miss toks = flatValue d miss toks) ∧
    (∀ toks start e, locate (d ++ [(k, ⟨miss⟩)]) miss toks start e =
      locate d miss toks start e) := by
  refine ⟨?_, ?_, flatValue_extend d miss k habs, ?_⟩
  · simp [tokenTextOr, habs]
  · simp [tokenLen, tokenTextQQ, habs]
  · intro toks start e
    unfold locate
    rw [flatValue_extend d miss k habs toks]
    exact (locateAux_congr d (d ++ [(k, ⟨miss⟩)]) miss _ start e _
      (fun tok => (tokenLen_extend d miss k habs tok).symm) toks 0 0 none).symm

/-- Witness for `c9_theorem`: key `"x"` absent from the singleton dictionary. -/
theorem c9_witness :
    lookupD [("a".toList, ⟨"A".toList⟩)] "x".toList = none ∧
    tokenTextOr [("a".toList, ⟨"A".toList⟩)] "M".toList (Token.ref "x".toList) =
      "M".toList ∧
    locate ([("a".toList, ⟨"A".toList⟩)] ++ [("x".toList, ⟨"M".toList⟩)])
        "M".toList [Token.ref "x".toList, Token.text "b".toList] 1 2 =
      locate [("a".toList, ⟨"A".toList⟩)] "M".toList
        [Token.ref "x".toList, Token.text "b".toList] 1 2 :=
  ⟨by decide,
   (c9_theorem [("a".toList, ⟨"A".toList⟩)] "M".toList "x".toList (by decide)).1,
   (c9_theorem [("a".toList, ⟨"A".toList⟩)] "M".toList "x".toList
     (by decide)).2.2.2 [Token.ref "x".toList, Token.text "b".toList] 1 2⟩

/-- C5 (code bug): `data[key].displayText` at src 195 has no optional
chaining, unlike every other dictionary access in the file; when a trigger
matches some suffix of the pre-caret text and an item key is missing from
the dictionary, the suggestion recomputation throws a TypeError instead of
producing no suggestion.  The embedding surfaces the throw as
`Except.error ()` on the concrete failing input: empty dictionary, item
`"ghost"`, pre-caret text `"@x"`. -/
theorem c5_theorem :
    computeSuggestions [] false [⟨none, ["ghost".toList]⟩] "@x".toList =
      .error () := by decide

theorem scanKey_ok (d : Dict) (cs : Bool) (trig : List Char → Option (List Char))
    (bct key : List Char) :
    ∀ (js : List Nat) (r : Option Nat),
      scanKey d cs trig bct key js = .ok r →
      r = js.find? (keyHit d cs trig bct key) := by
  intro js
  induction js with
  | nil =>
    intro r h
    cases h
    rfl
  | cons jj rest ih =>
    intro r h
    cases htr : trig (bct.drop jj) with
    | none =>
      have hk : keyHit d cs trig bct key jj = false := by simp [keyHit, htr]
      simp only [scanKey, htr] at h
      rw [List.find?_cons, hk]
      exact ih r h
    | some g =>
      cases hlk : lookupD d key with
      | none =>
        simp only [scanKey, htr, hlk] at h
        exact Except.noConfusion h
      | some td =>
        have hk : keyHit d cs trig bct key jj = capTest cs td.displayText g := by
          simp [keyHit, htr, hlk]
        simp only [scanKey, htr, hlk] at h
        rw [List.find?_cons, hk]
        cases hct : capTest cs td.displayText g with
        | true =>
          rw [hct] at h
          simp only [if_pos] at h
          cases h
          rfl
        | false =>
          rw [hct] at h
          simp only [Bool.false_eq_true, if_false] at h
          exact ih r h

theorem scanItems_ok (d : Dict) (cs : Bool) (trig : List Char → Option (List Char))
    (bct : List Char) :
    ∀ (items : List (List Char)) (l : List (List Char × Nat)),
      scanItems d cs trig bct items = .ok l →
      l = items.filterMap fun key =>
        (leastStart d cs trig bct key).map fun jj => (key, jj) := by
  intro items
  induction items with
  | nil =>
    intro l h
    cases h
    rfl
  | cons key rest ih =>
    intro l h
    rw [List.filterMap_cons]
    cases hsk : scanKey d cs trig bct key (List.range bct.length) with
    | error u =>
      simp only [scanItems, hsk] at h
      exact Except.noConfusion h
    | ok r =>
      have hr : r = leastStart d cs trig bct key :=
        scanKey_ok d cs trig bct key (List.range bct.length) r hsk
      cases r with
      | none =>
        simp only [scanItems, hsk] at h
        rw [← hr, Option.map_none']
        exact ih l h
      | some jj =>
        cases hrest : scanItems d cs trig bct rest with
        | error u =>
          simp only [scanItems, hsk, hrest] at h
          exact Except.noConfusion h
        | ok s2 =>
          simp only [scanItems, hsk, hrest] at h
          cases h
          rw [← hr, Option.map_some']
          rw [ih s2 hrest]

theorem computeSuggestions_ok (d : Dict) (cs : Bool) :
    ∀ (ls : List TriggerList) (bct : List Char) (l : List (List Char × Nat)),
      computeSuggestions d cs ls bct = .ok l →
      l = specSuggestions d cs ls bct := by
  intro ls
  induction ls with
  | nil =>
    intro bct l h
    cases h
    rfl
  | cons tl rest ih =>
    intro bct l h
    cases hsi : scanItems d cs (tl.trigger.getD defaultTrigger) bct tl.items with
    | error u =>
      simp only [computeSuggestions, hsi] at h
      exact Except.noConfusion h
    | ok s1 =>
      cases hrest : computeSuggestions d cs rest bct with
      | error u =>
        simp only [computeSuggestions, hsi, hrest] at h
        exact Except.noConfusion h
      | ok s2 =>
        simp only [computeSuggestions, hsi, hrest] at h
        cases h
        unfold specSuggestions
        rw [List.map_cons, List.flatten_cons]
        rw [← scanItems_ok d cs (tl.trigger.getD defaultTrigger) bct tl.items s1 hsi]
        have h2 := ih bct s2 hrest
        unfold specSuggestions at h2
        rw [← h2]

/-- C4 (amended): whenever the suggestion recomputation returns without
throwing it returns exactly the specification-side matcher: lists in
order, and for each item entry the smallest `startPos` at which the
trigger matches the suffix of the pre-caret text and the key's resolved
display text starts with the capture (per the `caseSensitive` rule) — so
at most one suggestion per item ENTRY, not per key: a key occurring twice
in one list's `items` contributes one suggestion per occurrence (see
`c4_counterexample`); there is no further sorting or de-duplication.  On
the concrete input of the claim — dictionary `{ann: Anna, bob: Bob}`,
default trigger, pre-caret text `"hello @An"`, case-insensitive — the
result is exactly `[(ann, 6)]`. -/
theorem c4_theorem :
    (∀ (d : Dict) (cs : Bool) (ls : List TriggerList) (bct : List Char)
        (l : List (List Char × Nat)),
      computeSuggestions d cs ls bct = .ok l → l = specSuggestions d cs ls bct) ∧
    computeSuggestions dictC4 false [⟨none, ["ann".toList, "bob".toList]⟩]
        "hello @An".toList = .ok [("ann".toList, 6)] :=
  ⟨fun d cs ls bct l h => computeSuggestions_ok d cs ls bct l h, by decide⟩

/-- Witness for `c4_theorem`: the refinement applied at the concrete input. -/
theorem c4_witness :
    computeSuggestions dictC4 false [⟨none, ["ann".toList, "bob".toList]⟩]
        "hello @An".toList = .ok [("ann".toList, 6)] ∧
    [("ann".toList, 6)] = specSuggestions dictC4 false
        [⟨none, ["ann".toList, "bob".toList]⟩] "hello @An".toList :=
  ⟨by decide,
   c4_theorem.1 dictC4 false [⟨none, ["ann".toList, "bob".toList]⟩]
     "hello @An".toList [("ann".toList, 6)] (by decide)⟩

/-- Counterexample to C4 as stated ("at most one suggestion per key per
list"): a list whose `items` contain the key "ann" twice emits the
suggestion (ann, 0) twice — more than one suggestion for that key from a
single list. -/
theorem c4_counterexample :
    computeSuggestions [("ann".toList, ⟨"Anna".toList⟩)] false
        [⟨none, ["ann".toList, "ann".toList]⟩] "@An".toList =
      .ok [("ann".toList, 0), ("ann".toList, 0)] ∧
    ¬ ([("ann".toList, 0), ("ann".toList, 0)].countP
        (fun s : List Char × Nat => s.1 == "ann".toList) ≤ 1) := by decide

/-! Structural lemmas about I1 and I2 used for the invariant-preservation
claim: extracting the invariants of prefix/suffix segments and rebuilding
them around the spliced-in text run. -/

theorem I1_take (l : List Token) (h : I1 l) (n : Nat) : I1 (l.take n) := by
  rw [I1] at h ⊢
  rw [← List.take_append_drop n l, List.chain'_append] at h
  exact h.1

theorem I1_drop (l : List Token) (h : I1 l) (n : Nat) : I1 (l.drop n) := by
  rw [I1] at h ⊢
  rw [← List.take_append_drop n l, List.chain'_append] at h
  exact h.2.1

theorem I2_take (l : List Token) (h : I2 l) (n : Nat) : I2 (l.take n) :=
  fun tok hm => h tok (List.take_subset n l hm)

theorem I2_drop (l : List Token) (h : I2 l) (n : Nat) : I2 (l.drop n) :=
  fun tok hm => h tok (List.drop_subset n l hm)

theorem I1_mid_last (A : List Token) (s : List Char) (B : List Token)
    (h : I1 (A ++ Token.text s :: B)) : isTextO A.getLast? = false := by
  rw [I1, List.chain'_append] at h
  cases hA : A.getLast? with
  | none => rfl
  | some x =>
    cases x with
    | text a =>
      exfalso
      exact h.2.2 (Token.text a) (Option.mem_def.mpr hA) (Token.text s)
        (Option.mem_def.mpr rfl) ⟨rfl, rfl⟩
    | ref k => rfl

theorem I1_mid_head (A : List Token) (s : List Char) (B : List Token)
    (h : I1 (A ++ Token.text s :: B)) : isTextO B[0]? = false := by
  rw [I1, List.chain'_append, List.chain'_cons'] at h
  cases hB : B[0]? with
  | none => rfl
  | some y =>
    cases y with
    | text b =>
      exfalso
      refine h.2.1.1 (Token.text b) ?_ ⟨rfl, rfl⟩
      rw [Option.mem_def, List.head?_eq_getElem?]
      exact hB
    | ref k => rfl

theorem I1_append_left (P C : List Token) (hP : I1 P) (hC : I1 C)
    (hPl : isTextO P.getLast? = false) : I1 (P ++ C) := by
  rw [I1, List.chain'_append]
  refine ⟨hP, hC, ?_⟩
  intro x hx y _ hcon
  rw [Option.mem_def] at hx
  rw [hx] at hPl
  cases x with
  | text a => simp [isTextO] at hPl
  | ref k => exact absurd hcon.1 (by simp [Token.isTextTok])

theorem I1_sandwich (P C : List Token) (m : List Char) (hP : I1 P) (hC : I1 C)
    (hPl : isTextO P.getLast? = false) (hCh : isTextO C[0]? = false) :
    I1 (P ++ Token.text m :: C) := by
  rw [I1, List.chain'_append]
  refine ⟨hP, ?_, ?_⟩
  · rw [List.chain'_cons']
    refine ⟨?_, hC⟩
    intro y hy hcon
    rw [Option.mem_def, List.head?_eq_getElem?] at hy
    rw [hy] at hCh
    cases y with
    | text b => simp [isTextO] at hCh
    | ref k => exact absurd hcon.2 (by simp [Token.isTextTok])
  · intro x hx y _ hcon
    rw [Option.mem_def] at hx
    rw [hx] at hPl
    cases x with
    | text a => simp [isTextO] at hPl
    | ref k => exact absurd hcon.1 (by simp [Token.isTextTok])

theorem I1_ref_sandwich (P C : List Token) (k : List Char)
    (hP : I1 P) (hC : I1 C) : I1 (P ++ Token.ref k :: C) := by
  rw [I1, List.chain'_append]
  refine ⟨hP, ?_, ?_⟩
  · rw [List.chain'_cons']
    refine ⟨?_, hC⟩
    intro y _ hcon
    exact absurd hcon.1 (by simp [Token.isTextTok])
  · intro x _ y hy hcon
    rw [Option.mem_def, List.head?_eq_getElem?] at hy
    have : y = Token.ref k := by
      simp at hy
      exact hy.symm ▸ rfl
    exact absurd (this ▸ hcon.2) (by simp [Token.isTextTok])

theorem I2_append (P C : List Token) (hP : I2 P) (hC : I2 C) : I2 (P ++ C) := by
  intro tok ht
  rcases List.mem_append.mp ht with h | h
  exacts [hP tok h, hC tok h]

theorem I2_sandwich (P C : List Token) (m : List Char) (hm : m ≠ [])
    (hP : I2 P) (hC : I2 C) : I2 (P ++ Token.text m :: C) := by
  intro tok ht
  rcases List.mem_append.mp ht with h | h
  · exact hP tok h
  · rcases List.mem_cons.mp h with h | h
    · subst h
      intro hc
      exact hm (Token.text.inj hc)
    · exact hC tok h

theorem I2_ref_sandwich (P C : List Token) (k : List Char)
    (hP : I2 P) (hC : I2 C) : I2 (P ++ Token.ref k :: C) := by
  intro tok ht
  rcases List.mem_append.mp ht with h | h
  · exact hP tok h
  · rcases List.mem_cons.mp h with h | h
    · subst h
      intro hc
      cases hc
    · exact hC tok h

theorem eraseIdx_mid_succ {α : Type} (A : List α) (x y : α) (B : List α) :
    (A ++ x :: y :: B).eraseIdx (A.length + 1) = A ++ x :: B := by
  induction A with
  | nil => rfl
  | cons a A ih => simp [ih]

theorem dropEmptyTok_mid (A : List Token) (m : List Char) (C : List Token) :
    dropEmptyTok (A ++ Token.text m :: C) A.length = m.isEmpty := by
  unfold dropEmptyTok
  rw [getElem?_mid]

theorem mergeEnd_text (A : List Token) (htt b : List Char) (B' : List Token) :
    mergeEnd true (A ++ Token.text htt :: Token.text b :: B') (A.length + 1) =
      A ++ Token.text (htt ++ b) :: B' := by
  unfold mergeEnd
  rw [if_pos rfl]
  have hp1 : (A ++ Token.text htt :: Token.text b :: B')[A.length + 1]? =
      some (Token.text b) := by
    rw [getElem?_mid_succ]
    simp
  have hp2 : (A ++ Token.text htt :: Token.text b :: B')[A.length]? =
      some (Token.text htt) := getElem?_mid A _ _
  simp only [Nat.add_sub_cancel, hp1, hp2]
  rw [set_mid, eraseIdx_mid_succ]

theorem mergeEnd_keep (A : List Token) (htt : List Char) (B : List Token)
    (hB : isTextO B[0]? = false) :
    mergeEnd true (A ++ Token.text htt :: B) (A.length + 1) =
      A ++ Token.text htt :: B := by
  unfold mergeEnd
  rw [if_pos rfl]
  have hp1 : (A ++ Token.text htt :: B)[A.length + 1]? = B[0]? :=
    getElem?_mid_succ A _ B
  cases hB0 : B[0]? with
  | none => simp only [hp1, hB0]
  | some y =>
    cases y with
    | text s =>
      rw [hB0] at hB
      simp [isTextO] at hB
    | ref k => simp only [hp1, hB0]

theorem mergeStart_text (A' : List Token) (a' c bct : List Char) (C : List Token) :
    mergeStart 1 (A' ++ Token.text a' :: Token.text c :: C) (A'.length + 1) bct =
      (A' ++ Token.text (a' ++ c) :: C, A'.length, a' ++ bct) := by
  unfold mergeStart
  rw [if_pos (Nat.succ_le_succ (Nat.zero_le _))]
  have hp1 : (A' ++ Token.text a' :: Token.text c :: C)[A'.length]? =
      some (Token.text a') := getElem?_mid A' _ _
  have hp2 : (A' ++ Token.text a' :: Token.text c :: C)[A'.length + 1]? =
      some (Token.text c) := by
    rw [getElem?_mid_succ]
    simp
  simp only [Nat.add_sub_cancel, hp1, hp2]
  rw [set_mid, eraseIdx_mid_succ]
  simp

theorem mergeStart_keep (A : List Token) (c bct : List Char) (C : List Token)
    (L : Nat) (hlast : isTextO A.getLast? = false) :
    mergeStart L (A ++ Token.text c :: C) A.length bct =
      (A ++ Token.text c :: C, A.length, bct) := by
  unfold mergeStart
  rcases List.eq_nil_or_concat A with rfl | ⟨A', x, rfl⟩
  · rw [if_neg (by simp)]
  · simp only [List.concat_eq_append] at hlast ⊢
    rw [if_pos (by simp)]
    have hp1 : ((A' ++ [x]) ++ Token.text c :: C)[(A' ++ [x]).length - 1]? = some x := by
      simp only [List.length_append, List.length_cons, List.length_nil,
        Nat.add_sub_cancel]
      rw [List.append_assoc, List.singleton_append]
      exact getElem?_mid A' x _
    have hp2 : ((A' ++ [x]) ++ Token.text c :: C)[(A' ++ [x]).length]? =
        some (Token.text c) := getElem?_mid _ _ _
    rw [List.getLast?_concat] at hlast
    cases x with
    | text s => simp [isTextO] at hlast
    | ref k => simp only [hp1, hp2]

theorem stage2_I1I2 (A C : List Token) (c bct : List Char) (i : Nat)
    (hi : A.length = i) (hA1 : I1 A) (hA2 : I2 A) (hC1 : I1 C) (hC2 : I2 C)
    (hCh : isTextO C[0]? = false) :
    I1 (stage2 (A ++ Token.text c :: C) i bct) ∧
    I2 (stage2 (A ++ Token.text c :: C) i bct) := by
  subst hi
  unfold stage2
  rcases List.eq_nil_or_concat A with rfl | ⟨A', x, rfl⟩
  · rw [mergeStart_keep [] c bct C 1 rfl]
    simp only
    rw [dropEmptyTok_mid]
    cases hc : c.isEmpty with
    | true =>
      rw [if_pos rfl]
      have hcn : c = [] := List.isEmpty_iff.mp hc
      rw [show ([] : List Token).length = ([] : List Token).length from rfl,
        eraseIdx_mid]
      exact ⟨hC1, hC2⟩
    | false =>
      rw [if_neg (by simp)]
      have hcn : c ≠ [] := fun h => by
        rw [h] at hc
        cases hc
      exact ⟨I1_sandwich [] C c hA1 hC1 rfl hCh,
        I2_sandwich [] C c hcn hA2 hC2⟩
  · simp only [List.concat_eq_append] at hA1 hA2 ⊢
    cases x with
    | ref k =>
      have hlast : isTextO (A' ++ [Token.ref k]).getLast? = false := by
        rw [List.getLast?_concat]
        rfl
      rw [mergeStart_keep (A' ++ [Token.ref k]) c bct C 1 hlast]
      simp only
      rw [dropEmptyTok_mid]
      cases hc : c.isEmpty with
      | true =>
        rw [if_pos rfl]
        rw [eraseIdx_mid]
        exact ⟨I1_append_left _ C hA1 hC1 hlast, I2_append _ C hA2 hC2⟩
      | false =>
        rw [if_neg (by simp)]
        have hcn : c ≠ [] := fun h => by
          rw [h] at hc
          cases hc
        exact ⟨I1_sandwich _ C c hA1 hC1 hlast hCh,
          I2_sandwich _ C c hcn hA2 hC2⟩
    | text a' =>
      have hassoc : (A' ++ [Token.text a']) ++ Token.text c :: C =
          A' ++ Token.text a' :: Token.text c :: C := by
        rw [List.append_assoc]
        rfl
      have hlen : (A' ++ [Token.text a']).length = A'.length + 1 := by simp
      rw [hassoc, hlen, mergeStart_text]
      simp only
      rw [dropEmptyTok_mid]
      have ha' : a' ≠ [] := by
        intro h
        exact hA2 (Token.text a') (by simp) (by rw [h])
      have hne : (a' ++ c).isEmpty = false := by
        cases hac : a' ++ c with
        | nil => exact absurd (List.append_eq_nil.mp hac).1 ha'
        | cons z zs => rfl
      rw [hne, if_neg (by simp)]
      have hA1' : I1 A' := by
        rw [I1, List.chain'_append] at hA1
        exact hA1.1
      have hA2' : I2 A' := fun tok hm => hA2 tok (List.mem_append_left _ hm)
      have hlast' : isTextO A'.getLast? = false :=
        I1_mid_last A' a' [] hA1
      exact ⟨I1_sandwich A' C (a' ++ c) hA1' hC1 hlast' hCh,
        I2_sandwich A' C (a' ++ c) (fun h => ha' (List.append_eq_nil.mp h).1)
          hA2' hC2⟩

theorem updateCore_single_I1I2 (toks : List Token) (head t tail : List Char)
    (i j : Nat) (h1 : I1 toks) (h2 : I2 toks) (hin : i ≤ toks.length) :
    I1 (updateTokensCore toks head [Token.text t] tail i j).newTokens ∧
    I2 (updateTokensCore toks head [Token.text t] tail i j).newTokens := by
  have hAlen : (toks.take i).length = i := by
    rw [List.length_take]
    omega
  have hsplit : (updateTokensCore toks head [Token.text t] tail i j).newTokens =
      stage2 (mergeEnd true
        (toks.take i ++ Token.text (head ++ (t ++ tail)) :: toks.drop (max i j))
        (i + 1)) i (head ++ t) := by
    unfold updateTokensCore stage2
    rw [apply_ite SpliceCore.newTokens]
    simp only [show foldTail [Token.text t] head tail =
        ([Token.text (t ++ tail)], head ++ t) from rfl,
      show foldHead head [Token.text (t ++ tail)] =
        [Token.text (head ++ (t ++ tail))] from rfl,
      show isTextO ([Token.text t].getLast?) = true from rfl,
      List.length_cons, List.length_nil, List.singleton_append,
      List.append_assoc, Nat.zero_add]
  rw [hsplit]
  have hA1 : I1 (toks.take i) := I1_take toks h1 i
  have hA2 : I2 (toks.take i) := I2_take toks h2 i
  rcases hBs : toks.drop (max i j) with _ | ⟨b0, B'⟩
  · rw [show i + 1 = (toks.take i).length + 1 by rw [hAlen]]
    rw [mergeEnd_keep (toks.take i) (head ++ (t ++ tail)) [] rfl]
    exact stage2_I1I2 (toks.take i) [] (head ++ (t ++ tail)) (head ++ t) i hAlen
      hA1 hA2 List.chain'_nil (fun tok hm => absurd hm (List.not_mem_nil tok)) rfl
  · have hB1 : I1 (b0 :: B') := hBs ▸ I1_drop toks h1 (max i j)
    have hB2 : I2 (b0 :: B') := hBs ▸ I2_drop toks h2 (max i j)
    cases b0 with
    | text b =>
      rw [show i + 1 = (toks.take i).length + 1 by rw [hAlen]]
      rw [mergeEnd_text (toks.take i) (head ++ (t ++ tail)) b B']
      have hCh : isTextO B'[0]? = false := I1_mid_head [] b B' hB1
      have hC1 : I1 B' := by
        have hh := hB1
        rw [I1, List.chain'_cons'] at hh
        exact hh.2
      have hC2 : I2 B' := fun tok hm => hB2 tok (List.mem_cons_of_mem _ hm)
      exact stage2_I1I2 (toks.take i) B' (head ++ (t ++ tail) ++ b) (head ++ t) i
        hAlen hA1 hA2 hC1 hC2 hCh
    | ref k =>
      rw [show i + 1 = (toks.take i).length + 1 by rw [hAlen]]
      rw [mergeEnd_keep (toks.take i) (head ++ (t ++ tail)) (Token.ref k :: B')
        (by simp [isTextO])]
      exact stage2_I1I2 (toks.take i) (Token.ref k :: B') (head ++ (t ++ tail))
        (head ++ t) i hAlen hA1 hA2 hB1 hB2 (by simp [isTextO])

theorem locateAux_bounds (d : Dict) (miss value : List Char) (start e n : Nat) :
    ∀ (rest : List Token) (total j : Nat) (io : Option (Nat × List Char)),
      j + rest.length ≤ n →
      (∀ q, io = some q → q.1 ≤ n) →
      (locateAux d miss value start e n rest total j io).i ≤ n ∧
      (locateAux d miss value start e n rest total j io).j ≤ n := by
  intro rest
  induction rest with
  | nil =>
    intro total j io hj hq
    rw [locateAux]
    rcases io with _ | q
    · exact ⟨le_refl n, by simpa using hj⟩
    · exact ⟨hq q rfl, by simpa using hj⟩
  | cons tok rest ih =>
    intro total j io hj hq
    have hjn : j < n := by
      simp only [List.length_cons] at hj
      omega
    rw [locateAux]
    rcases io with _ | q
    · by_cases hg : start < total + tokenLen d miss tok
      · by_cases hbreak : e ≤ total
        · rw [if_pos hbreak, if_pos ⟨rfl, hg⟩]
          exact ⟨le_of_lt hjn, le_of_lt hjn⟩
        · rw [if_neg hbreak, if_pos ⟨rfl, hg⟩]
          refine ih (total + tokenLen d miss tok) (j + 1) _ ?_ ?_
          · simp only [List.length_cons] at hj
            omega
          · intro q hq2
            cases hq2
            exact le_of_lt hjn
      · have hng : ¬((Option.isNone (none : Option (Nat × List Char)) = true) ∧
            start < total + tokenLen d miss tok) := fun h => hg h.2
        by_cases hbreak : e ≤ total
        · rw [if_pos hbreak, if_neg hng]
          exact ⟨le_refl n, le_of_lt hjn⟩
        · rw [if_neg hbreak, if_neg hng]
          refine ih (total + tokenLen d miss tok) (j + 1) _ ?_ ?_
          · simp only [List.length_cons] at hj
            omega
          · intro q hq2
            cases hq2
    · have hng : ¬((Option.isNone (some q) = true) ∧
          start < total + tokenLen d miss tok) := fun h => Bool.noConfusion h.1
      by_cases hbreak : e ≤ total
      · rw [if_pos hbreak, if_neg hng]
        exact ⟨hq q rfl, le_of_lt hjn⟩
      · rw [if_neg hbreak, if_neg hng]
        refine ih (total + tokenLen d miss tok) (j + 1) _ ?_ ?_
        · simp only [List.length_cons] at hj
          omega
        · intro q2 hq2
          cases hq2
          exact hq _ rfl

theorem locate_bounds (d : Dict) (miss : List Char) (toks : List Token)
    (start e : Nat) :
    (locate d miss toks start e).i ≤ toks.length ∧
    (locate d miss toks start e).j ≤ toks.length := by
  unfold locate
  exact locateAux_bounds d miss _ start e toks.length toks 0 0 none (by simp)
    (fun q hq => by cases hq)

theorem beforeInputEdit_I1I2 (d : Dict) (miss : List Char) (toks : List Token)
    (start e : Nat) (t : List Char) (h1 : I1 toks) (h2 : I2 toks) :
    I1 (beforeInputEdit d miss toks start e t).newTokens ∧
    I2 (beforeInputEdit d miss toks start e t).newTokens := by
  unfold beforeInputEdit
  rw [updateTokens_newTokens]
  exact updateCore_single_I1I2 toks (locate d miss toks start e).head t
    (locate d miss toks start e).tail (locate d miss toks start e).i
    (locate d miss toks start e).j h1 h2 (locate_bounds d miss toks start e).1

theorem set_mid' {α : Type} (A : List α) (x y : α) (B : List α) (i : Nat)
    (h : A.length = i) : (A ++ x :: B).set i y = A ++ y :: B :=
  h ▸ set_mid A x y B

theorem eraseIdx_mid' {α : Type} (A : List α) (x : α) (B : List α) (i : Nat)
    (h : A.length = i) : (A ++ x :: B).eraseIdx i = A ++ B :=
  h ▸ eraseIdx_mid A x B

theorem insertIdx_mid {α : Type} (A : List α) (y : α) (B : List α) :
    (A ++ B).insertIdx A.length y = A ++ y :: B := by
  induction A with
  | nil => simp
  | cons a A ih => simp [List.insertIdx_succ_cons, ih]

theorem insertIdx_mid' {α : Type} (A : List α) (y : α) (B : List α) (i : Nat)
    (h : A.length = i) : (A ++ B).insertIdx i y = A ++ y :: B :=
  h ▸ insertIdx_mid A y B

theorem dropEmptyTok_mid' (A : List Token) (m : List Char) (C : List Token)
    (i : Nat) (h : A.length = i) :
    dropEmptyTok (A ++ Token.text m :: C) i = m.isEmpty :=
  h ▸ dropEmptyTok_mid A m C

theorem applySuggestion_I1I2 (toks : List Token) (ti cp sp : Nat)
    (key s : List Char) (h1 : I1 toks) (h2 : I2 toks)
    (hti : toks[ti]? = some (Token.text s)) :
    I1 (applySuggestion toks ti cp sp key) ∧
    I2 (applySuggestion toks ti cp sp key) := by
  obtain ⟨hlt, hget⟩ := List.getElem?_eq_some_iff.mp hti
  have hdecomp : toks = toks.take ti ++ Token.text s :: toks.drop (ti + 1) := by
    conv_lhs => rw [← List.take_append_drop ti toks]
    rw [List.drop_eq_getElem_cons hlt, hget]
  have hAlen : (toks.take ti).length = ti := by
    rw [List.length_take]
    omega
  have h1' : I1 (toks.take ti ++ Token.text s :: toks.drop (ti + 1)) := hdecomp ▸ h1
  have hA1 : I1 (toks.take ti) := I1_take toks h1 ti
  have hB1 : I1 (toks.drop (ti + 1)) := I1_drop toks h1 (ti + 1)
  have hA2 : I2 (toks.take ti) := I2_take toks h2 ti
  have hB2 : I2 (toks.drop (ti + 1)) := I2_drop toks h2 (ti + 1)
  have hPl : isTextO (toks.take ti).getLast? = false := I1_mid_last _ s _ h1'
  have hCh : isTextO (toks.drop (ti + 1))[0]? = false := I1_mid_head _ s _ h1'
  have hs : s ≠ [] := by
    intro h
    exact h2 (Token.text s) (hget ▸ List.getElem_mem hlt) (by rw [h])
  unfold applySuggestion
  rw [hti]
  simp only [textOf]
  conv_lhs => rw [hdecomp]
  conv_rhs => rw [hdecomp]
  rw [set_mid' _ _ _ _ _ hAlen, dropEmptyTok_mid' _ _ _ _ hAlen]
  by_cases hdc : (s.drop cp).isEmpty = true
  · rw [if_pos hdc, eraseIdx_mid' _ _ _ _ hAlen, insertIdx_mid' _ _ _ _ hAlen]
    by_cases hsp : sp = 0
    · rw [if_neg (fun hc => hc hsp)]
      exact ⟨I1_ref_sandwich _ _ key hA1 hB1, I2_ref_sandwich _ _ key hA2 hB2⟩
    · rw [if_pos hsp, insertIdx_mid' _ _ _ _ hAlen]
      have hm : s.take sp ≠ [] := by
        intro h
        rcases List.take_eq_nil_iff.mp h with h | h
        · exact hsp h
        · exact hs h
      refine ⟨I1_sandwich _ _ _ hA1 (I1_ref_sandwich [] _ key List.chain'_nil hB1)
          hPl (by simp [isTextO]), ?_⟩
      exact I2_sandwich _ _ _ hm hA2
        (I2_ref_sandwich [] _ key (fun tok hm2 => absurd hm2 (List.not_mem_nil tok)) hB2)
  · rw [if_neg hdc, insertIdx_mid' _ _ _ _ hAlen]
    have hdcne : s.drop cp ≠ [] := by
      intro h
      rw [h] at hdc
      exact hdc rfl
    have htail1 : I1 (Token.text (s.drop cp) :: toks.drop (ti + 1)) :=
      I1_sandwich [] _ _ List.chain'_nil hB1 rfl hCh
    have htail2 : I2 (Token.text (s.drop cp) :: toks.drop (ti + 1)) :=
      I2_sandwich [] _ _ hdcne (fun tok hm2 => absurd hm2 (List.not_mem_nil tok)) hB2
    by_cases hsp : sp = 0
    · rw [if_neg (fun hc => hc hsp)]
      exact ⟨I1_ref_sandwich _ _ key hA1 htail1, I2_ref_sandwich _ _ key hA2 htail2⟩
    · rw [if_pos hsp, insertIdx_mid' _ _ _ _ hAlen]
      have hm : s.take sp ≠ [] := by
        intro h
        rcases List.take_eq_nil_iff.mp h with h | h
        · exact hsp h
        · exact hs h
      refine ⟨I1_sandwich _ _ _ hA1 (I1_ref_sandwich [] _ key List.chain'_nil htail1)
          hPl (by simp [isTextO]), ?_⟩
      exact I2_sandwich _ _ _ hm hA2
        (I2_ref_sandwich [] _ key (fun tok hm2 => absurd hm2 (List.not_mem_nil tok)) htail2)

/-- C1 (amended): typed insertion, deletion, and cut — every edit entering
through the `beforeinput` pipeline, which splices a single text run — and
suggestion application preserve I1 and I2 on any sequence satisfying them.
Paste does NOT preserve them in general: a payload whose last token is a
Reference, pasted with the selection end strictly inside a Reference
token's display text whose successor is a Text token, pushes the leftover
tail as a new Text element and the merge at the right splice boundary is
skipped because it is guarded on `typeof lastToken === "string"` (src 168),
leaving two adjacent Text tokens (`c1_counterexample`). -/
theorem c1_theorem :
    (∀ (d : Dict) (miss : List Char) (toks : List Token) (start e : Nat)
        (t : List Char), I1 toks → I2 toks →
      I1 (beforeInputEdit d miss toks start e t).newTokens ∧
      I2 (beforeInputEdit d miss toks start e t).newTokens) ∧
    (∀ (toks : List Token) (ti cp sp : Nat) (key s : List Char),
      I1 toks → I2 toks → toks[ti]? = some (Token.text s) →
      I1 (applySuggestion toks ti cp sp key) ∧
      I2 (applySuggestion toks ti cp sp key)) :=
  ⟨fun d miss toks start e t h1 h2 =>
    beforeInputEdit_I1I2 d miss toks start e t h1 h2,
   fun toks ti cp sp key s h1 h2 hti =>
    applySuggestion_I1I2 toks ti cp sp key s h1 h2 hti⟩

/-- Witness for `c1_theorem`: a concrete deletion and a concrete
suggestion application. -/
theorem c1_witness :
    (I1 toksW1 ∧ I2 toksW1 ∧
      (I1 (beforeInputEdit dW2 "M".toList toksW1 1 2 []).newTokens ∧
       I2 (beforeInputEdit dW2 "M".toList toksW1 1 2 []).newTokens)) ∧
    (toksW1b[0]? = some (Token.text "hello @An".toList) ∧
      (I1 (applySuggestion toksW1b 0 9 6 "ann".toList) ∧
       I2 (applySuggestion toksW1b 0 9 6 "ann".toList))) :=
  ⟨⟨by decide, by decide,
    c1_theorem.1 dW2 "M".toList toksW1 1 2 [] (by decide) (by decide)⟩,
   ⟨by decide,
    c1_theorem.2 toksW1b 0 9 6 "ann".toList "hello @An".toList (by decide)
      (by decide) (by decide)⟩⟩

/-- Counterexample to C1 as stated: pasting the copy-producible payload
`{tokens: [ref "p"], length: 2}` into `[ref "r", "abc"]` (which satisfies
I1 and I2; ref "r" displays "RR") at selection `[0, 1)` — the end falls
strictly inside "RR" — yields `[ref "p", "R", "abc"]`, which has two
adjacent Text tokens: the paste mutation breaks I1. -/
theorem c1_counterexample :
    I1 toksC1x ∧ I2 toksC1x ∧
    (handlePaste dC1x "{missing}".toList toksC1x 0 1
        (some ⟨some [Token.ref "p".toList], some 2⟩)).splice.map
      SpliceOut.newTokens =
      some [Token.ref "p".toList, Token.text "R".toList,
        Token.text "abc".toList] ∧
    ¬ I1 [Token.ref "p".toList, Token.text "R".toList,
        Token.text "abc".toList] := by decide

theorem flatQQ_append (d : Dict) (miss : List Char) (l₁ l₂ : List Token) :
    flatQQ d miss (l₁ ++ l₂) = flatQQ d miss l₁ ++ flatQQ d miss l₂ := by
  simp [flatQQ]

theorem flatQQ_cons (d : Dict) (miss : List Char) (t : Token) (l : List Token) :
    flatQQ d miss (t :: l) = tokenTextQQ d miss t ++ flatQQ d miss l := by
  simp [flatQQ]

theorem pushText_flat (d : Dict) (miss : List Char) (res : List Token)
    (s : List Char) :
    flatQQ d miss (pushText res s) = flatQQ d miss res ++ s := by
  rcases List.eq_nil_or_concat res with rfl | ⟨R, x, rfl⟩
  · simp [pushText, flatQQ, tokenTextQQ]
  · cases x with
    | text a =>
      simp [pushText, List.getLast?_concat, List.dropLast_concat, flatQQ_append,
        flatQQ_cons, flatQQ, tokenTextQQ, List.append_assoc]
    | ref k =>
      simp [pushText, List.getLast?_concat, flatQQ_append, flatQQ_cons, flatQQ,
        tokenTextQQ, List.append_assoc]

theorem pushText_I1 (res : List Token) (s : List Char) (h : I1 res) :
    I1 (pushText res s) := by
  rcases List.eq_nil_or_concat res with rfl | ⟨R, x, rfl⟩
  · exact I1_sandwich [] [] s List.chain'_nil List.chain'_nil rfl rfl
  · simp only [List.concat_eq_append] at h ⊢
    cases x with
    | text a =>
      rw [show pushText (R ++ [Token.text a]) s =
          R ++ Token.text (a ++ s) :: [] from by
        simp [pushText, List.getLast?_concat, List.dropLast_concat]]
      have hR : I1 R := by
        rw [I1, List.chain'_append] at h
        exact h.1
      exact I1_sandwich R [] (a ++ s) hR List.chain'_nil
        (I1_mid_last R a [] h) rfl
    | ref k =>
      rw [show pushText (R ++ [Token.ref k]) s =
          (R ++ [Token.ref k]) ++ Token.text s :: [] from by
        simp [pushText, List.getLast?_concat]]
      exact I1_sandwich (R ++ [Token.ref k]) [] s h List.chain'_nil
        (by rw [List.getLast?_concat]; rfl) rfl

theorem pushText_I2 (res : List Token) (s : List Char) (hs : s ≠ [])
    (h : I2 res) : I2 (pushText res s) := by
  rcases List.eq_nil_or_concat res with rfl | ⟨R, x, rfl⟩
  · intro tok hm
    have h2 : tok = Token.text s := by simpa [pushText] using hm
    subst h2
    intro hc
    exact hs (Token.text.inj hc)
  · simp only [List.concat_eq_append] at h ⊢
    cases x with
    | text a =>
      rw [show pushText (R ++ [Token.text a]) s =
          R ++ Token.text (a ++ s) :: [] from by
        simp [pushText, List.getLast?_concat, List.dropLast_concat]]
      have ha : a ≠ [] := by
        intro hz
        exact h (Token.text a) (by simp) (by rw [hz])
      exact I2_sandwich R [] (a ++ s)
        (fun hz => ha (List.append_eq_nil.mp hz).1)
        (fun tok hm => h tok (List.mem_append_left _ hm))
        (fun tok hm => absurd hm (List.not_mem_nil tok))
    | ref k =>
      rw [show pushText (R ++ [Token.ref k]) s =
          (R ++ [Token.ref k]) ++ Token.text s :: [] from by
        simp [pushText, List.getLast?_concat]]
      exact I2_sandwich (R ++ [Token.ref k]) [] s hs h
        (fun tok hm => absurd hm (List.not_mem_nil tok))

theorem pushText_refs (res : List Token) (s : List Char) (k : List Char) :
    Token.ref k ∈ pushText res s ↔ Token.ref k ∈ res := by
  rcases List.eq_nil_or_concat res with rfl | ⟨R, x, rfl⟩
  · simp [pushText]
  · simp only [List.concat_eq_append]
    cases x with
    | text a =>
      rw [show pushText (R ++ [Token.text a]) s =
          R ++ Token.text (a ++ s) :: [] from by
        simp [pushText, List.getLast?_concat, List.dropLast_concat]]
      simp
    | ref k' =>
      rw [show pushText (R ++ [Token.ref k']) s =
          (R ++ [Token.ref k']) ++ Token.text s :: [] from by
        simp [pushText, List.getLast?_concat]]
      simp

theorem sliceQQ_of_ge (d : Dict) (miss : List Char) (start e : Nat) :
    ∀ (l : List Token) (total : Nat), e ≤ total →
      sliceQQ d miss start e l total = [] := by
  intro l
  induction l with
  | nil => intro total _; rfl
  | cons tok rest ih =>
    intro total h
    rw [sliceQQ]
    have h1 : e - total = 0 := by omega
    rw [h1, ih _ (by omega)]
    simp

theorem coveredRefB_of_ge (d : Dict) (miss : List Char) (start e : Nat)
    (k : List Char) :
    ∀ (l : List Token) (total : Nat), e ≤ total →
      coveredRefB d miss start e k l total = false := by
  intro l
  induction l with
  | nil => intro total _; rfl
  | cons tok rest ih =>
    intro total h
    cases tok with
    | text s =>
      rw [coveredRefB]
      exact ih _ (by omega)
    | ref k' =>
      rw [coveredRefB, ih _ (by omega)]
      simp only [Bool.or_false]
      have h2 : decide (total < e) = false := by
        simp only [decide_eq_false_iff_not]
        omega
      rw [h2]
      simp

theorem coveredRefB_mem (d : Dict) (miss : List Char) (start e : Nat)
    (k : List Char) :
    ∀ (l : List Token) (total : Nat),
      coveredRefB d miss start e k l total = true → Token.ref k ∈ l := by
  intro l
  induction l with
  | nil => intro total h; cases h
  | cons tok rest ih =>
    intro total h
    cases tok with
    | text s =>
      rw [coveredRefB] at h
      exact List.mem_cons_of_mem _ (ih _ h)
    | ref k' =>
      rw [coveredRefB] at h
      rcases Bool.or_eq_true_iff.mp h with h | h
      · have hk : k' = k := by
          simp only [Bool.and_eq_true, beq_iff_eq] at h
          exact h.1.1.1
        rw [hk]
        exact List.mem_cons_self _ _
      · exact List.mem_cons_of_mem _ (ih _ h)

theorem headSlice_eq (txt : List Char) (start e total : Nat)
    (h1 : total < start) (h2 : start < total + txt.length) (h3 : start < e) :
    jsSubstring txt (start - total) (min txt.length (e - total)) =
      (txt.take (e - total)).drop (start - total) := by
  rw [jsSubstring, if_pos (Nat.le_min.mpr ⟨by omega, by omega⟩)]
  rw [List.drop_take]
  rw [List.take_eq_take]
  simp only [List.length_drop]
  omega

theorem flatValue_eq_flatQQ (d : Dict) (miss : List Char) (l : List Token)
    (h : ∀ tok ∈ l, tokenTextOr d miss tok = tokenTextQQ d miss tok) :
    flatValue d miss l = flatQQ d miss l := by
  unfold flatValue flatQQ
  exact congrArg List.flatten (List.map_congr_left h)

theorem take_slice_drop {α : Type} (V : List α) (start e : Nat) (h : start ≤ e) :
    V.take start ++ ((V.take e).drop start ++ V.drop e) = V := by
  have h1 : V.take start = (V.take e).take start := by
    rw [List.take_take, min_eq_left h]
  rw [h1, ← List.append_assoc, List.take_append_drop, List.take_append_drop]

theorem sliceQQ_flat (d : Dict) (miss : List Char) (start e : Nat) :
    ∀ (l : List Token) (total : Nat),
      sliceQQ d miss start e l total =
        ((flatQQ d miss l).take (e - total)).drop (start - total) := by
  intro l
  induction l with
  | nil => intro total; simp [sliceQQ, flatQQ]
  | cons tok rest ih =>
    intro total
    rw [sliceQQ, ih (total + (tokenTextQQ d miss tok).length), flatQQ_cons,
      List.take_append_eq_append_take, List.drop_append_eq_append_drop]
    congr 1
    rw [List.length_take]
    by_cases hc : (tokenTextQQ d miss tok).length ≤ e - total
    · rw [show e - (total + (tokenTextQQ d miss tok).length) =
          e - total - (tokenTextQQ d miss tok).length from by omega,
        show start - (total + (tokenTextQQ d miss tok).length) =
          start - total - min (e - total) (tokenTextQQ d miss tok).length from by
          omega]
    · rw [show e - (total + (tokenTextQQ d miss tok).length) = 0 from by omega,
        show e - total - (tokenTextQQ d miss tok).length = 0 from by omega]
      simp

theorem copyAux_master (d : Dict) (miss : List Char) (start e : Nat)
    (hse : start < e) :
    ∀ (l : List Token) (total : Nat) (res : List Token) (len : Nat),
      I2 l → I1 res → I2 res → len = (flatQQ d miss res).length →
      (total < start → res = []) →
      I1 (copyAux d miss start e l total res len).1 ∧
      I2 (copyAux d miss start e l total res len).1 ∧
      (copyAux d miss start e l total res len).2 =
        (flatQQ d miss (copyAux d miss start e l total res len).1).length ∧
      flatQQ d miss (copyAux d miss start e l total res len).1 =
        flatQQ d miss res ++ sliceQQ d miss start e l total ∧
      (∀ k, Token.ref k ∈ (copyAux d miss start e l total res len).1 ↔
        (Token.ref k ∈ res ∨ coveredRefB d miss start e k l total = true)) := by
  intro l
  induction l with
  | nil =>
    intro total res len _ h1 h2 h4 _
    refine ⟨h1, h2, h4, by simp [copyAux, sliceQQ], fun k => ?_⟩
    simp [copyAux, coveredRefB]
  | cons tok rest ih =>
    intro total res len hI2l h1 h2 h4 h5
    have hI2r : I2 rest := fun t ht => hI2l t (List.mem_cons_of_mem _ ht)
    by_cases hlt : total < start
    · have hres : res = [] := h5 hlt
      subst hres
      have hlen0 : len = 0 := by simpa [flatQQ] using h4
      subst hlen0
      by_cases hhd : start < total + (tokenTextQQ d miss tok).length
      · have hstep : copyAux d miss start e (tok :: rest) total [] 0 =
            copyAux d miss start e rest (total + (tokenTextQQ d miss tok).length)
              [Token.text (((tokenTextQQ d miss tok).take (e - total)).drop
                (start - total))]
              (((tokenTextQQ d miss tok).take (e - total)).drop
                (start - total)).length := by
          simp only [copyAux]
          rw [if_pos hlt, if_pos hhd,
            headSlice_eq (tokenTextQQ d miss tok) start e total hlt hhd hse]
          simp
        rw [hstep]
        obtain ⟨sl, hsl⟩ : ∃ sl,
            ((tokenTextQQ d miss tok).take (e - total)).drop (start - total) = sl :=
          ⟨_, rfl⟩
        rw [hsl]
        have hslne : sl ≠ [] := by
          rw [← hsl]
          intro hc
          have hlc := congrArg List.length hc
          simp only [List.length_drop, List.length_take, List.length_nil] at hlc
          omega
        obtain ⟨g1, g2, g3, g4, g5⟩ :=
          ih (total + (tokenTextQQ d miss tok).length) [Token.text sl] sl.length
            hI2r (List.chain'_singleton _)
            (fun t ht => by
              rw [List.mem_singleton] at ht
              subst ht
              intro hc
              exact hslne (Token.text.inj hc))
            (by simp [flatQQ, tokenTextQQ])
            (fun hc => absurd hc (by omega))
        refine ⟨g1, g2, g3, ?_, fun k => ?_⟩
        · rw [g4, sliceQQ, hsl]
          simp [flatQQ, tokenTextQQ]
        · rw [g5 k]
          cases tok with
          | text s =>
            simp only [tokenTextQQ, coveredRefB]
            simp
          | ref k' =>
            have hdec : decide (start ≤ total) = false := decide_eq_false (by omega)
            rw [coveredRefB, hdec]
            simp
      · have hstep : copyAux d miss start e (tok :: rest) total [] 0 =
            copyAux d miss start e rest
              (total + (tokenTextQQ d miss tok).length) [] 0 := by
          simp only [copyAux]
          rw [if_pos hlt, if_neg hhd]
        rw [hstep]
        obtain ⟨g1, g2, g3, g4, g5⟩ :=
          ih (total + (tokenTextQQ d miss tok).length) [] 0
            hI2r List.chain'_nil h2 h4 (fun _ => rfl)
        refine ⟨g1, g2, g3, ?_, fun k => ?_⟩
        · rw [g4, sliceQQ]
          have hnil : ((tokenTextQQ d miss tok).take (e - total)).drop
              (start - total) = [] := by
            apply List.drop_eq_nil_of_le
            rw [List.length_take]
            omega
          rw [hnil, List.nil_append]
        · rw [g5 k]
          cases tok with
          | text s =>
            simp only [tokenTextQQ, coveredRefB]
          | ref k' =>
            have hdec : decide (start ≤ total) = false := decide_eq_false (by omega)
            rw [coveredRefB, hdec]
            simp
    · by_cases hlt2 : total < e
      · by_cases hfull : total + (tokenTextQQ d miss tok).length ≤ e
        · cases tok with
          | text s =>
            have hfull' : total + s.length ≤ e := by
              simpa [tokenTextQQ] using hfull
            have hstep : copyAux d miss start e (Token.text s :: rest) total res len =
                copyAux d miss start e rest (total + s.length) (pushText res s)
                  (len + s.length) := by
              simp only [copyAux, tokenTextQQ]
              rw [if_neg hlt, if_pos hlt2, if_pos hfull']
            rw [hstep]
            have hsne : s ≠ [] := by
              intro h
              exact hI2l (Token.text s) (List.mem_cons_self _ _) (by rw [h])
            obtain ⟨g1, g2, g3, g4, g5⟩ :=
              ih (total + s.length) (pushText res s) (len + s.length) hI2r
                (pushText_I1 res s h1) (pushText_I2 res s hsne h2)
                (by rw [pushText_flat, List.length_append, h4])
                (fun hc => absurd hc (by omega))
            refine ⟨g1, g2, g3, ?_, fun k => ?_⟩
            · rw [g4, pushText_flat, sliceQQ]
              simp only [tokenTextQQ]
              have h0 : start - total = 0 := by omega
              have hT : s.take (e - total) = s := List.take_of_length_le (by omega)
              rw [h0, List.drop_zero, hT, List.append_assoc]
            · rw [g5 k, pushText_refs, coveredRefB]
          | ref k' =>
            have hstep : copyAux d miss start e (Token.ref k' :: rest) total res len =
                copyAux d miss start e rest
                  (total + (tokenTextQQ d miss (Token.ref k')).length)
                  (res ++ [Token.ref k'])
                  (len + (tokenTextQQ d miss (Token.ref k')).length) := by
              simp only [copyAux]
              rw [if_neg hlt, if_pos hlt2, if_pos hfull]
            rw [hstep]
            obtain ⟨g1, g2, g3, g4, g5⟩ :=
              ih (total + (tokenTextQQ d miss (Token.ref k')).length)
                (res ++ [Token.ref k'])
                (len + (tokenTextQQ d miss (Token.ref k')).length) hI2r
                (I1_ref_sandwich res [] k' h1 List.chain'_nil)
                (I2_ref_sandwich res [] k' h2
                  (fun t ht => absurd ht (List.not_mem_nil t)))
                (by rw [flatQQ_append, List.length_append, h4]
                    simp [flatQQ])
                (fun hc => absurd hc (by omega))
            refine ⟨g1, g2, g3, ?_, fun k => ?_⟩
            · rw [g4, flatQQ_append, sliceQQ]
              have h0 : start - total = 0 := by omega
              have hT : (tokenTextQQ d miss (Token.ref k')).take (e - total) =
                  tokenTextQQ d miss (Token.ref k') :=
                List.take_of_length_le (by omega)
              rw [h0, List.drop_zero, hT, List.append_assoc]
              simp [flatQQ]
            · rw [g5 k, coveredRefB, decide_eq_true (show start ≤ total by omega),
                decide_eq_true hlt2, decide_eq_true hfull]
              simp only [List.mem_append, List.mem_singleton, Bool.and_true,
                Bool.or_eq_true, beq_iff_eq]
              constructor
              · rintro ((h | h) | h)
                · exact Or.inl h
                · exact Or.inr (Or.inl (Token.ref.inj h).symm)
                · exact Or.inr (Or.inr h)
              · rintro (h | h | h)
                · exact Or.inl (Or.inl h)
                · exact Or.inl (Or.inr (by rw [h]))
                · exact Or.inr h
        · have hstep : copyAux d miss start e (tok :: rest) total res len =
              copyAux d miss start e rest
                (total + (tokenTextQQ d miss tok).length)
                (pushText res ((tokenTextQQ d miss tok).take (e - total)))
                (len + ((tokenTextQQ d miss tok).take (e - total)).length) := by
            simp only [copyAux]
            rw [if_neg hlt, if_pos hlt2, if_neg hfull]
          rw [hstep]
          have hslne : (tokenTextQQ d miss tok).take (e - total) ≠ [] := by
            intro hc
            have hlc := congrArg List.length hc
            simp only [List.length_take, List.length_nil] at hlc
            omega
          obtain ⟨g1, g2, g3, g4, g5⟩ :=
            ih (total + (tokenTextQQ d miss tok).length)
              (pushText res ((tokenTextQQ d miss tok).take (e - total)))
              (len + ((tokenTextQQ d miss tok).take (e - total)).length) hI2r
              (pushText_I1 res _ h1) (pushText_I2 res _ hslne h2)
              (by rw [pushText_flat, List.length_append, h4])
              (fun hc => absurd hc (by omega))
          refine ⟨g1, g2, g3, ?_, fun k => ?_⟩
          · rw [g4, pushText_flat, sliceQQ,
              sliceQQ_of_ge d miss start e rest _ (by omega)]
            have h0 : start - total = 0 := by omega
            rw [h0, List.drop_zero]
            simp
          · rw [g5 k, pushText_refs]
            cases tok with
            | text s =>
              simp only [tokenTextQQ, coveredRefB]
            | ref k' =>
              have hdec : decide
                  (total + (tokenTextQQ d miss (Token.ref k')).length ≤ e) =
                  false := decide_eq_false (by omega)
              rw [coveredRefB, hdec]
              simp
      · have hstep : copyAux d miss start e (tok :: rest) total res len =
            (res, len) := by
          simp only [copyAux]
          rw [if_neg hlt, if_neg hlt2]
        rw [hstep]
        refine ⟨h1, h2, h4, ?_, fun k => ?_⟩
        · rw [sliceQQ_of_ge d miss start e (tok :: rest) total (by omega),
            List.append_nil]
        · rw [coveredRefB_of_ge d miss start e k (tok :: rest) total (by omega)]
          simp

/-- C8: for a non-empty selection `[start, e)` on a sequence with no empty
text runs, the copied payload satisfies I1 (adjacent text results merged)
and I2, its `length` field is exactly the character length of its flattened
content, that content is precisely the selected slice of the sequence's
flattened (`??`-resolved) value (partially covered tokens contribute the
overlapping substring as text), and a reference token appears in the
payload exactly when the selection fully covers some occurrence of its
display-text span. -/
theorem c8_theorem (d : Dict) (miss : List Char) (toks : List Token)
    (start e : Nat) (h2 : I2 toks) (hse : start < e) :
    ∃ ct cl, handleCopy d miss toks start e = some (ct, cl) ∧
      I1 ct ∧ I2 ct ∧ cl = (flatQQ d miss ct).length ∧
      flatQQ d miss ct = ((flatQQ d miss toks).take e).drop start ∧
      (∀ k, Token.ref k ∈ ct ↔ coveredRefB d miss start e k toks 0 = true) := by
  obtain ⟨g1, g2, g3, g4, g5⟩ := copyAux_master d miss start e hse toks 0 [] 0
    h2 List.chain'_nil (fun t ht => absurd ht (List.not_mem_nil t)) rfl
    (fun _ => rfl)
  refine ⟨(copyAux d miss start e toks 0 [] 0).1,
    (copyAux d miss start e toks 0 [] 0).2, ?_, g1, g2, g3, ?_, fun k => ?_⟩
  · rw [handleCopy, if_neg (Nat.ne_of_lt hse)]
  · rw [g4, sliceQQ_flat]
    simp [flatQQ]
  · rw [g5 k]
    simp

/-- Witness for `c8_theorem`: copying `[1, 5)` out of `"abXYcd"`. -/
theorem c8_witness :
    I2 toksW8 ∧ 1 < 5 ∧
    (∃ ct cl, handleCopy dW2 "M".toList toksW8 1 5 = some (ct, cl) ∧
      I1 ct ∧ I2 ct ∧ cl = (flatQQ dW2 "M".toList ct).length ∧
      flatQQ dW2 "M".toList ct =
        ((flatQQ dW2 "M".toList toksW8).take 5).drop 1 ∧
      (∀ k, Token.ref k ∈ ct ↔
        coveredRefB dW2 "M".toList 1 5 k toksW8 0 = true)) :=
  ⟨by decide, by decide, c8_theorem dW2 "M".toList toksW8 1 5 (by decide)
    (by decide)⟩

/-- C3 (amended): copying a non-empty selection `[start, e)` whose
endpoints do not fall strictly inside a reference token's display span and
pasting the payload back at the same selection reproduces the original
flat value, on a sequence satisfying I1 and I2 whose tokens all resolve to
nonempty display texts with agreeing `??`/`||` fallback semantics
(`GoodToks`).  Without the `GoodToks` restriction the copy walk and the
paste locator measure reference tokens with `??` while the rendered value
uses `||`, and the round trip fails (see `c3_counterexample`). -/
theorem c3_theorem (d : Dict) (miss : List Char) (toks : List Token)
    (start e : Nat) (h1 : I1 toks) (h2 : I2 toks)
    (hg : GoodToks d miss toks) (hse : start < e)
    (he : e ≤ (flatValue d miss toks).length)
    (hb1 : insideRefB d miss start toks 0 = false)
    (hb2 : insideRefB d miss e toks 0 = false) :
    ∃ ct cl sp,
      handleCopy d miss toks start e = some (ct, cl) ∧
      handlePaste d miss toks start e (some ⟨some ct, some cl⟩) =
        ⟨true, some sp⟩ ∧
      flatValue d miss sp.newTokens = flatValue d miss toks := by
  have hVQ : flatValue d miss toks = flatQQ d miss toks :=
    flatValue_eq_flatQQ d miss toks (fun tok ht => (hg tok ht).1)
  obtain ⟨g1, g2, g3, g4, g5⟩ := copyAux_master d miss start e hse toks 0 [] 0
    h2 List.chain'_nil (fun t ht => absurd ht (List.not_mem_nil t)) rfl
    (fun _ => rfl)
  obtain ⟨ct, cl, hpay⟩ : ∃ ct cl, copyAux d miss start e toks 0 [] 0 = (ct, cl) :=
    ⟨_, _, rfl⟩
  rw [hpay] at g1 g2 g3 g4 g5
  replace g1 : I1 ct := g1
  replace g2 : I2 ct := g2
  replace g3 : cl = (flatQQ d miss ct).length := g3
  replace g5 : ∀ k, Token.ref k ∈ ct ↔
      (Token.ref k ∈ ([] : List Token) ∨
        coveredRefB d miss start e k toks 0 = true) := g5
  have hslice : flatQQ d miss ct = ((flatQQ d miss toks).take e).drop start := by
    have g4' : flatQQ d miss ct =
        flatQQ d miss [] ++ sliceQQ d miss start e toks 0 := g4
    rw [g4', sliceQQ_flat]
    simp [flatQQ]
  have hgct : GoodToks d miss ct := by
    intro tok ht
    cases tok with
    | text s =>
      refine ⟨rfl, ?_⟩
      intro hc
      have hs : s = [] := by simpa [tokenTextQQ] using hc
      exact g2 (Token.text s) ht (by rw [hs])
    | ref k =>
      have hk : Token.ref k ∈ toks :=
        coveredRefB_mem d miss start e k toks 0
          (((g5 k).mp ht).resolve_left (fun hx => absurd hx (List.not_mem_nil _)))
      exact hg (Token.ref k) hk
  have hVQc : flatValue d miss ct = flatQQ d miss ct :=
    flatValue_eq_flatQQ d miss ct (fun tok ht => (hgct tok ht).1)
  have hcl : cl = e - start := by
    rw [g3, hslice]
    rw [hVQ] at he
    simp only [List.length_drop, List.length_take]
    omega
  have hcl0 : cl ≠ 0 := by omega
  refine ⟨ct, cl,
    updateTokens toks (locate d miss toks start e).head ct cl
      (locate d miss toks start e).tail start (locate d miss toks start e).i
      (locate d miss toks start e).j, ?_, ?_, ?_⟩
  · rw [handleCopy, if_neg (Nat.ne_of_lt hse), hpay]
  · have hred : handlePaste d miss toks start e (some ⟨some ct, some cl⟩) =
        if cl = 0 then ⟨false, none⟩
        else ⟨true, some (updateTokens toks (locate d miss toks start e).head ct cl
          (locate d miss toks start e).tail start (locate d miss toks start e).i
          (locate d miss toks start e).j)⟩ := rfl
    rw [hred, if_neg hcl0]
  · rw [flatValue_spliced d miss toks start e ct cl hg (Nat.le_of_lt hse),
      hVQc, hslice, ← hVQ, List.append_assoc]
    exact take_slice_drop (flatValue d miss toks) start e (Nat.le_of_lt hse)

/-- Witness for `c3_theorem`: copy-then-paste of `[2, 4)` (the whole
reference token) of `"abXY"`. -/
theorem c3_witness :
    (I1 toksW2 ∧ I2 toksW2 ∧ GoodToks dW2 "M".toList toksW2 ∧ 2 < 4 ∧
      4 ≤ (flatValue dW2 "M".toList toksW2).length ∧
      insideRefB dW2 "M".toList 2 toksW2 0 = false ∧
      insideRefB dW2 "M".toList 4 toksW2 0 = false) ∧
    (∃ ct cl sp,
      handleCopy dW2 "M".toList toksW2 2 4 = some (ct, cl) ∧
      handlePaste dW2 "M".toList toksW2 2 4 (some ⟨some ct, some cl⟩) =
        ⟨true, some sp⟩ ∧
      flatValue dW2 "M".toList sp.newTokens =
        flatValue dW2 "M".toList toksW2) :=
  ⟨⟨by decide, by decide, by decide, by decide, by decide, by decide, by decide⟩,
   c3_theorem dW2 "M".toList toksW2 2 4 (by decide) (by decide) (by decide)
     (by decide) (by decide) (by decide) (by decide)⟩

/-- Counterexample to C3 as stated: over the dictionary mapping `"k"` to an
empty displayText, the sequence `[ref "k", "ab"]` renders as `"Mab"` (`||`
fallback) while the copy walk and locator measure the reference as length 0
(`??`).  The selection `[0, 2)` is non-empty, lies inside the flat value
and has neither endpoint strictly inside a reference span, yet pasting the
copied payload back at `[0, 2)` yields flat value `"MMabb"`, not `"Mab"`. -/
theorem c3_counterexample :
    I1 toksC3x ∧ I2 toksC3x ∧ (0 : Nat) < 2 ∧
    2 ≤ (flatValue dX2 "M".toList toksC3x).length ∧
    insideRefB dX2 "M".toList 0 toksC3x 0 = false ∧
    insideRefB dX2 "M".toList 2 toksC3x 0 = false ∧
    handleCopy dX2 "M".toList toksC3x 0 2 =
      some ([Token.ref "k".toList, Token.text "ab".toList], 2) ∧
    (handlePaste dX2 "M".toList toksC3x 0 2
        (some ⟨some [Token.ref "k".toList, Token.text "ab".toList], some 2⟩)).splice.map
        (fun sp => flatValue dX2 "M".toList sp.newTokens) ≠
      some (flatValue dX2 "M".toList toksC3x) := by decide
